import Mathlib

/-!
# dedupe.go: content-addressed hard-link store

A shallow embedding of `dedupe.go`.  Go strings are lists of characters, byte slices are
lists of `Fin 256`, the `int32` counters are integers wrapped into the signed 32-bit range,
`log.Fatal` is the error side of `Except`, and the operating system (reading a file,
`os.Mkdir`, `os.Link`) is a record of functions over an abstract file-system state.
-/

namespace Dedupe

/-- Go `string`, as its sequence of characters. -/
abbrev Str := List Char

/-- One byte of a `[]byte`. -/
abbrev Byte := Fin 256

/-! ## Library functions used by the worker (`strings`, `path/filepath`, `fmt`) -/

/-- The loop of `filepath.Ext`, run over the reversed path: `acc` holds the characters already
passed, so that `c :: acc` is `path[i:]`.  The scan stops at a path separator. -/
def extScan : List Char → Str → Str
  | [], _ => []
  | c :: rest, acc =>
    if c = '/' then []
    else if c = '.' then c :: acc
    else extScan rest (c :: acc)

/-- `filepath.Ext(path)`: the suffix beginning at the final dot of the final element of
`path`, empty when there is no such dot. -/
def Ext (path : Str) : Str := extScan path.reverse []

/-- The case table of package `unicode`, taken as given: `lower` is `unicode.ToLower`.  No
character is lower-cased to the path separator. -/
class CaseTable where
  lower : Char → Char
  lower_separator : ∀ c, lower c = '/' → c = '/'

/-- `strings.ToLower`: every character mapped by `unicode.ToLower` (strings are taken to be
valid UTF-8, so that they are sequences of characters). -/
def ToLower [CaseTable] (s : Str) : Str := s.map CaseTable.lower

/-- The digit table of package `fmt` (`ldigits`). -/
def ldigits : Str := "0123456789abcdefx".toList

/-- One byte under the verb `%x`: the digits of its high and low nibble. -/
def hexByte (b : Byte) : Str := [ldigits.getD (b.val / 16) '0', ldigits.getD (b.val % 16) '0']

/-- `fmt.Sprintf("%x", bs)` for a byte slice: two lowercase digits per byte. -/
def SprintfX : List Byte → Str
  | [] => []
  | b :: bs => hexByte b ++ SprintfX bs

/-- The elements of a path: the stretches between separators. -/
def splitPath : Str → List Str
  | [] => [[]]
  | c :: cs =>
    if c = '/' then [] :: splitPath cs
    else
      match splitPath cs with
      | x :: xs => (c :: x) :: xs
      | [] => [[c]]

/-- One element met by `filepath.Clean`, the elements kept so far being `kept` (last one
first): empty elements and `.` are dropped, `..` removes the element before it, is dropped at
the root, and is kept where there is nothing to remove. -/
def cleanStep (rooted : Bool) (kept : List Str) (elem : Str) : List Str :=
  if elem = [] ∨ elem = ['.'] then kept
  else if elem = ['.', '.'] then
    match kept with
    | top :: below => if top = ['.', '.'] then elem :: kept else below
    | [] => if rooted then [] else [elem]
  else elem :: kept

/-- Elements joined by separators. -/
def joinPath : List Str → Str
  | [] => []
  | [x] => x
  | x :: y :: rest => x ++ '/' :: joinPath (y :: rest)

/-- The elements `filepath.Clean` keeps, in order. -/
def cleanElems (path : Str) : List Str :=
  ((splitPath path).foldl (cleanStep (path.head? = some '/')) []).reverse

/-- `filepath.Clean(path)`: the shortest equivalent path; `.` for the empty result of a path
that is not rooted. -/
def Clean (path : Str) : Str :=
  if path.head? = some '/' then '/' :: joinPath (cleanElems path)
  else if cleanElems path = [] then ['.']
  else joinPath (cleanElems path)

/-- `filepath.Join(dir, name)`: empty elements are ignored, the others are joined by the
separator and the result is cleaned. -/
def Join (dir name : Str) : Str :=
  if dir ≠ [] then Clean (dir ++ '/' :: name)
  else if name ≠ [] then Clean name
  else []

/-- A plain path element: not empty, without separator, neither `.` nor `..`. -/
def plain (n : Str) : Prop := n ≠ [] ∧ '/' ∉ n ∧ n ≠ ['.'] ∧ n ≠ ['.', '.']

/-- What `filepath.Clean` keeps (last element first): plain elements, after `..` elements
that only a path that is not rooted has. -/
def Kept (rooted : Bool) (kept : List Str) : Prop :=
  ∃ (k : Nat) (names : List Str), kept = names ++ List.replicate k ['.', '.'] ∧
    (rooted = true → k = 0) ∧ ∀ n ∈ names, plain n

/-- A cleaned directory as the prefix of the paths below it: nothing for `.`, the separator
for the root, the directory and a separator otherwise. -/
def dirPrefix (dir : Str) : Str :=
  if Clean dir = ['.'] then []
  else if Clean dir = ['/'] then ['/']
  else Clean dir ++ ['/']

/-! ## The worker's destination (dedupe.go lines 68-71) -/

/-- `dirname := filepath.Join(*output, fmt.Sprintf("%x", hash[:1]))`. -/
def dirname (output : Str) (hash : List Byte) : Str := Join output (SprintfX (hash.take 1))

/-- `filename := filepath.Join(dirname, fmt.Sprintf("%x%s", hash[1:], ext))` with
`ext := strings.ToLower(filepath.Ext(path))`. -/
def filename [CaseTable] (output : Str) (hash : List Byte) (path : Str) : Str :=
  Join (dirname output hash) (SprintfX (hash.drop 1) ++ ToLower (Ext path))

/-- Value of a lowercase hexadecimal digit (used to read the rendered digits back). -/
def hexValue (c : Char) : Option Nat :=
  if '0' ≤ c ∧ c ≤ '9' then some (c.toNat - 48)
  else if 'a' ≤ c ∧ c ≤ 'f' then some (c.toNat - 87)
  else none

/-- Reads a string of lowercase hexadecimal digits back into bytes, two digits per byte. -/
def unhex : Str → Option (List Byte)
  | [] => some []
  | [_] => none
  | c :: d :: rest =>
    match hexValue c, hexValue d with
    | some hi, some lo => (unhex rest).map (fun bs => Fin.ofNat (hi * 16 + lo) :: bs)
    | _, _ => none

/-! ## Errors, counters and the operating system -/

/-- Error numbers a system call can fail with. -/
inductive Errno where
  | EEXIST | ENOTEMPTY | ENOENT | EACCES | ENOTDIR | EISDIR | EXDEV | ENOSPC
  deriving DecidableEq

/-- `os.IsExist(err)` for a non-nil error: the error says that a file or directory already
exists. -/
def IsExist : Errno → Bool
  | .EEXIST => true
  | .ENOTEMPTY => true
  | _ => false

/-- Wraps an integer into the range of `int32`, as Go's `int32` arithmetic does. -/
def wrapInt32 (v : Int) : Int := (v + 2147483648) % 4294967296 - 2147483648

/-- The statement `x++` on an `int32` variable: the new value. -/
def incInt32 (x : Int) : Int := wrapInt32 (x + 1)

/-- `atomic.AddInt32(&addr, delta)`: the new value of the counter. -/
def AddInt32 (addr delta : Int) : Int := wrapInt32 (addr + delta)

/-- The system calls the program makes, over a file-system state `σ`.  A result `none` is Go's
`nil` error. -/
structure OS (σ : Type) where
  /-- `os.Open(path)`: the error, if the file cannot be opened. -/
  Open : σ → Str → Option Errno
  /-- `io.Copy` of the opened file to its end: the bytes read, or a read error. -/
  Copy : σ → Str → Except Errno (List Byte)
  /-- The SHA-256 digest of a byte stream (`sha256.New` ... `hash.Sum(nil)`). -/
  Sum256 : List Byte → List Byte
  /-- `os.Mkdir(name, 0777)`. -/
  Mkdir : σ → Str → σ × Option Errno
  /-- `os.Link(oldname, newname)`. -/
  Link : σ → Str → Str → σ × Option Errno

/-- `hashFile` (dedupe.go lines 128-141). -/
def hashFile {σ : Type} (os : OS σ) (fs : σ) (path : Str) : Except Errno (List Byte) :=
  match os.Open fs path with
  | some err => .error err
  | none =>
    match os.Copy fs path with
    | .error err => .error err
    | .ok bytes => .ok (os.Sum256 bytes)

/-! ## The worker (dedupe.go lines 60-86) -/

/-- What the workers share: the file system, the `duplicates` counter and the log. -/
structure WorkerState (σ : Type) where
  fs : σ
  duplicates : Int
  log : List Str

/-- The test of line 74 on the result of `os.Mkdir`: `err != nil && !os.IsExist(err)`. -/
def mkdirFatal : Option Errno → Option Errno
  | some err => if IsExist err then none else some err
  | none => none

/-- Lines 74-84: create the shard directory, then the link.  `Except.error` is `log.Fatal`,
which ends the process. -/
def place {σ : Type} (os : OS σ) (st : WorkerState σ) (path dir file : Str) :
    Except Errno (WorkerState σ) :=
  let m := os.Mkdir st.fs dir
  match mkdirFatal m.2 with
  | some err => .error err
  | none =>
    let l := os.Link m.1 path file
    match l.2 with
    | none => .ok { st with fs := l.1 }
    | some err =>
      if IsExist err then .ok { st with fs := l.1, duplicates := AddInt32 st.duplicates 1 }
      else .error err

/-- Lines 63-84, the body of the loop over the queue, for one path. -/
def workerBody [CaseTable] {σ : Type} (os : OS σ) (output : Str) (st : WorkerState σ) (path : Str) :
    Except Errno (WorkerState σ) :=
  match hashFile os st.fs path with
  | .error err => .error err
  | .ok hash =>
    let dir := dirname output hash
    let file := filename output hash path
    place os { st with log := st.log ++ [file ++ " -> ".toList ++ path] } path dir file

/-- Lines 62-85, `for path := range queue`, for one worker that receives the paths of
`queue` in this order. -/
def worker [CaseTable] {σ : Type} (os : OS σ) (output : Str) :
    WorkerState σ → List Str → Except Errno (WorkerState σ)
  | st, [] => .ok st
  | st, path :: queue =>
    match workerBody os output st path with
    | .error err => .error err
    | .ok st1 => worker os output st1 queue

/-- A digest function with values of 32 bytes, as SHA-256 is. -/
structure Digest where
  sum : List Byte → List Byte
  size : ∀ bytes, (sum bytes).length = 32

instance : CoeFun Digest (fun _ => List Byte → List Byte) := ⟨Digest.sum⟩

/-- The store as a set of existing paths: directory creation and link creation fail with
`EEXIST` exactly when the path is already present, and succeed otherwise, adding the path.
Input files are given by `contents`; a path without contents cannot be opened. -/
def setOS (sum256 : Digest) (contents : Str → Option (List Byte)) : OS (List Str) where
  Open := fun _ path => if (contents path).isSome then none else some .ENOENT
  Copy := fun _ path =>
    match contents path with
    | some bytes => .ok bytes
    | none => .error .ENOENT
  Sum256 := sum256.sum
  Mkdir := fun fs name => if name ∈ fs then (fs, some .EEXIST) else (name :: fs, none)
  Link := fun fs _ newname =>
    if newname ∈ fs then (fs, some .EEXIST) else (newname :: fs, none)

/-- The store after `Mkdir` in `setOS`: the directory is added unless it is there. -/
def withDir (fs : List Str) (d : Str) : List Str := if d ∈ fs then fs else d :: fs

/-! ## The traversal (`filepath.Walk`) -/

/-- What `os.Lstat` reports of an entry and the callback reads: `info.Name()` and
`info.IsDir()`. -/
structure FileInfo where
  Name : Str
  IsDir : Bool

/-- An entry of an input tree, as the traversal meets it. -/
inductive Entry where
  /-- Something that is not a directory. -/
  | file (name : Str)
  /-- A directory with its entries, in the order `readDirNames` lists them. -/
  | dir (name : Str) (entries : List Entry)
  /-- A directory whose entries cannot be listed. -/
  | unreadable (name : Str) (err : Errno)
  /-- A name on which `os.Lstat` fails. -/
  | broken (name : Str) (err : Errno)

/-- The name of an entry in its directory. -/
def Entry.name : Entry → Str
  | .file name => name
  | .dir name _ => name
  | .unreadable name _ => name
  | .broken name _ => name

/-- The non-nil errors a `WalkFunc` returns here: `filepath.SkipDir`, or the error it was
given. -/
inductive WalkErr where
  | SkipDir
  | os (err : Errno)
  deriving DecidableEq

/-- The arguments `info, err` of a `WalkFunc` call: file information and a `nil` error, or an
error. -/
inductive Visit where
  | ok (info : FileInfo)
  | failed (err : Errno)

mutual
/-- The function `walk` of `path/filepath`, as in the current standard library: a directory
is listed first, the callback is called on the entry (with the error of the listing, if any),
then the entries of a directory are walked. -/
def walk {σ : Type} (fn : σ → Str → Visit → σ × Option WalkErr) (path : Str) :
    Entry → σ → σ × Option WalkErr
  | .file name, st => fn st path (.ok ⟨name, false⟩)
  | .dir name entries, st =>
    let r := fn st path (.ok ⟨name, true⟩)
    match r.2 with
    | some err => (r.1, some err)
    | none => walkNames fn path entries r.1
  | .unreadable _ err, st => fn st path (.failed err)
  | .broken _ err, st => fn st path (.failed err)
/-- The loop of `walk` over the names of a directory: an error other than `SkipDir` ends the
traversal; `SkipDir` returned for a directory skips that directory only. -/
def walkNames {σ : Type} (fn : σ → Str → Visit → σ × Option WalkErr) (path : Str) :
    List Entry → σ → σ × Option WalkErr
  | [], st => (st, none)
  | .broken name err :: rest, st =>
    let r := fn st (Join path name) (.failed err)
    match r.2 with
    | some (.os e) => (r.1, some (.os e))
    | _ => walkNames fn path rest r.1
  | .file name :: rest, st =>
    let r := walk fn (Join path name) (.file name) st
    match r.2 with
    | some err => (r.1, some err)
    | none => walkNames fn path rest r.1
  | .dir name entries :: rest, st =>
    let r := walk fn (Join path name) (.dir name entries) st
    match r.2 with
    | some (.os e) => (r.1, some (.os e))
    | _ => walkNames fn path rest r.1
  | .unreadable name err :: rest, st =>
    let r := walk fn (Join path name) (.unreadable name err) st
    match r.2 with
    | some (.os e) => (r.1, some (.os e))
    | _ => walkNames fn path rest r.1
end

/-- `filepath.Walk(root, fn)`, where `node` is what is found at `root`: `SkipDir` from the
root is turned into `nil`. -/
def Walk {σ : Type} (fn : σ → Str → Visit → σ × Option WalkErr) (root : Str) (node : Entry)
    (st : σ) : σ × Option WalkErr :=
  let r := walk fn root node st
  match r.2 with
  | some .SkipDir => (r.1, none)
  | _ => r

/-! ## The producer (dedupe.go lines 89-121) -/

/-- The flags after `kingpin.Parse` and `regexp.Compile`: each pattern is given by its
`MatchString`. -/
structure Config where
  parallelism : Nat
  extensionRE : Str → Bool
  skipFileRE : Str → Bool
  skipDirRE : Str → Bool
  output : Str

/-- What the traversal goroutine owns: the counters `files` and `skipped`, the paths sent on
`queue` so far, and the log. -/
structure Producer where
  files : Int
  skipped : Int
  queue : List Str
  log : List Str

/-- The state in which `main` starts the traversal: counters at zero, nothing sent. -/
def Producer.start : Producer := ⟨0, 0, [], []⟩

/-- The three places `skipped++; log.Printf("skipping %s", path)`. -/
def Producer.skip (st : Producer) (path : Str) : Producer :=
  { st with skipped := incInt32 st.skipped, log := st.log ++ ["skipping ".toList ++ path] }

/-- The callback given to `filepath.Walk` (lines 90-120). -/
def walkFn [CaseTable]
    (cfg : Config) (st : Producer) (path : Str) : Visit → Producer × Option WalkErr
  | .failed err => (st, some (.os err))
  | .ok info =>
    if info.IsDir then
      if cfg.skipDirRE info.Name then (st.skip path, some .SkipDir)
      else (st, none)
    else
      let ext := ToLower (Ext path)
      if !cfg.extensionRE ext then (st.skip path, none)
      else if cfg.skipFileRE info.Name then (st.skip path, none)
      else ({ st with files := incInt32 st.files, queue := st.queue ++ [path] }, none)

/-- The loop over `*input` (lines 89-121); each input directory comes with the tree found
there.  The value returned by `filepath.Walk` is not used. -/
def produce [CaseTable] (cfg : Config) : List (Str × Entry) → Producer → Producer
  | [], st => st
  | (dir, node) :: rest, st => produce cfg rest (Walk (walkFn cfg) dir node st).1

/-- The line printed at the end of `main`. -/
structure Summary where
  skipped : Int
  files : Int
  duplicates : Int
  deriving DecidableEq

/-- A run of `main` in which the queued paths are placed one after the other, in the order
they were queued: the result is the summary and the final file system, or the error of
`log.Fatal`. -/
def main [CaseTable] {σ : Type} (cfg : Config) (os : OS σ) (input : List (Str × Entry)) (fs : σ) :
    Except Errno (Summary × σ) :=
  let p := produce cfg input Producer.start
  match worker os cfg.output ⟨fs, 0, []⟩ p.queue with
  | .error err => .error err
  | .ok w => .ok (⟨p.skipped, p.files, w.duplicates⟩, w.fs)

/-! ## What a tree holds, in the words of the specification -/

mutual
/-- Every entry of the tree can be read: no `Lstat` and no directory listing fails. -/
def Entry.readable : Entry → Bool
  | .file _ => true
  | .dir _ entries => readableAll entries
  | .unreadable _ _ => false
  | .broken _ _ => false
/-- Every entry of the list can be read. -/
def readableAll : List Entry → Bool
  | [] => true
  | e :: rest => e.readable && readableAll rest
end

/-- `Under path node dirs p name`: in the tree `node` found at `path`, a file of base name
`name` lies at path `p`, and `dirs` are the base names of the directories on the way from
`node` (included) down to the file. -/
inductive Under : Str → Entry → List Str → Str → Str → Prop
  | file (path name : Str) : Under path (.file name) [] path name
  | dir (path name : Str) (entries : List Entry) (e : Entry) (dirs : List Str) (p fname : Str) :
      e ∈ entries → Under (Join path e.name) e dirs p fname →
      Under path (.dir name entries) (name :: dirs) p fname

mutual
/-- The paths of the files the filter accepts, in the order of the traversal: files below no
directory matching skip-dir, whose lower-cased extension matches the extension pattern and
whose base name does not match skip-file. -/
def accepted [CaseTable] (cfg : Config) (path : Str) : Entry → List Str
  | .file name =>
    if cfg.extensionRE (ToLower (Ext path)) && !cfg.skipFileRE name then [path] else []
  | .dir name entries => if cfg.skipDirRE name then [] else acceptedIn cfg path entries
  | .unreadable _ _ => []
  | .broken _ _ => []
/-- The accepted files of the entries of the directory at `path`. -/
def acceptedIn [CaseTable] (cfg : Config) (path : Str) : List Entry → List Str
  | [] => []
  | e :: rest => accepted cfg (Join path e.name) e ++ acceptedIn cfg path rest
end

mutual
/-- The number of rejections: one for each directory matching skip-dir that is met (nothing
below it is met), one for each file met that fails the extension pattern or matches
skip-file. -/
def rejections [CaseTable] (cfg : Config) (path : Str) : Entry → Nat
  | .file name =>
    if cfg.extensionRE (ToLower (Ext path)) && !cfg.skipFileRE name then 0 else 1
  | .dir name entries => if cfg.skipDirRE name then 1 else rejectionsIn cfg path entries
  | .unreadable _ _ => 0
  | .broken _ _ => 0
/-- The rejections among the entries of the directory at `path`. -/
def rejectionsIn [CaseTable] (cfg : Config) (path : Str) : List Entry → Nat
  | [] => 0
  | e :: rest => rejections cfg (Join path e.name) e + rejectionsIn cfg path rest
end

mutual
/-- The number of files of a tree whose parent directory matches skip-dir, or whose name
matches skip-file, or whose extension fails the extension pattern; `parent` tells whether the
directory holding the entry matches skip-dir. -/
def rejectedFiles [CaseTable] (cfg : Config) (parent : Bool) (path : Str) : Entry → Nat
  | .file name =>
    if parent || cfg.skipFileRE name || !cfg.extensionRE (ToLower (Ext path)) then 1 else 0
  | .dir name entries => rejectedFilesIn cfg (cfg.skipDirRE name) path entries
  | .unreadable _ _ => 0
  | .broken _ _ => 0
/-- The same count over the entries of the directory at `path`. -/
def rejectedFilesIn [CaseTable] (cfg : Config) (parent : Bool) (path : Str) : List Entry → Nat
  | [] => 0
  | e :: rest =>
    rejectedFiles cfg parent (Join path e.name) e + rejectedFilesIn cfg parent path rest
end

/-! ## The worker pool (dedupe.go lines 36-42, 59-87, 123-125) -/

/-- Where a worker goroutine stands. -/
inductive PC where
  /-- Line 62: waiting to receive from `queue`. -/
  | recv
  /-- Line 63: holds `path`, about to call `hashFile`. -/
  | hash (path : Str)
  /-- Line 74: about to call `os.Mkdir(dirname, 0777)`. -/
  | mkdir (path dir file : Str)
  /-- Line 78: about to call `os.Link(path, filename)`. -/
  | link (path file : Str)
  /-- Line 80: about to call `atomic.AddInt32(&duplicates, 1)`. -/
  | add
  /-- The loop has ended (`queue` closed and drained) and `wg.Done()` has run. -/
  | done
  deriving DecidableEq

/-- The process while the workers run: the paths the traversal has still to send on the
unbuffered `queue`, the workers, the file system, the shared counter, the log, and the error
of `log.Fatal` once some goroutine has ended the process. -/
structure Machine (σ : Type) where
  pending : List Str
  workers : List PC
  fs : σ
  duplicates : Int
  log : List Str
  crashed : Option Errno

/-- One step of worker `i`: its next receive, system call or atomic update.  A worker waiting
on an empty `queue` ends when nothing is left to send (`close(queue)`), and nothing moves once
the process has ended. -/
def Machine.step [CaseTable]
    {σ : Type} (os : OS σ) (output : Str) (m : Machine σ) (i : Nat) : Machine σ :=
  if m.crashed.isSome then m
  else
    match m.workers[i]? with
    | none => m
    | some .recv =>
      match m.pending with
      | path :: rest => { m with pending := rest, workers := m.workers.set i (.hash path) }
      | [] => { m with workers := m.workers.set i .done }
    | some (.hash path) =>
      match hashFile os m.fs path with
      | .error err => { m with crashed := some err }
      | .ok hash =>
        let dir := dirname output hash
        let file := filename output hash path
        { m with workers := m.workers.set i (.mkdir path dir file),
                 log := m.log ++ [file ++ " -> ".toList ++ path] }
    | some (.mkdir path dir file) =>
      let r := os.Mkdir m.fs dir
      match mkdirFatal r.2 with
      | some err => { m with fs := r.1, crashed := some err }
      | none => { m with fs := r.1, workers := m.workers.set i (.link path file) }
    | some (.link path file) =>
      let r := os.Link m.fs path file
      match r.2 with
      | none => { m with fs := r.1, workers := m.workers.set i .recv }
      | some err =>
        if IsExist err then { m with fs := r.1, workers := m.workers.set i .add }
        else { m with fs := r.1, crashed := some err }
    | some .add =>
      { m with duplicates := AddInt32 m.duplicates 1, workers := m.workers.set i .recv }
    | some .done => m

/-- The workers run under a schedule: the list of the workers that take the successive
steps. -/
def Machine.run [CaseTable]
    {σ : Type} (os : OS σ) (output : Str) (m : Machine σ) (schedule : List Nat) :
    Machine σ :=
  schedule.foldl (Machine.step os output) m

/-- Lines 36-42 and 59-87: `parallelism` workers are started, all waiting on `queue`. -/
def Machine.init {σ : Type} (parallelism : Nat) (queue : List Str) (fs : σ) : Machine σ :=
  { pending := queue, workers := List.replicate parallelism .recv, fs := fs, duplicates := 0,
    log := [], crashed := none }

/-- `wg.Wait()` returns: everything was sent, every worker has ended, the process has not. -/
def Machine.finished {σ : Type} (m : Machine σ) : Bool :=
  m.crashed.isNone && m.pending.isEmpty && m.workers.all (fun pc => pc = .done)

/-- A run of `main` with `cfg.parallelism` workers under a schedule: the summary line and the
final file system when the schedule lets `wg.Wait()` return, nothing when it does not (the
process was ended by `log.Fatal`, or the schedule stops short). -/
def mainPar [CaseTable] {σ : Type} (cfg : Config) (os : OS σ) (input : List (Str × Entry)) (fs : σ)
    (schedule : List Nat) : Option (Summary × σ) :=
  let p := produce cfg input Producer.start
  let m := (Machine.init cfg.parallelism p.queue fs).run os cfg.output schedule
  if m.finished then some (⟨p.skipped, p.files, m.duplicates⟩, m.fs) else none

/-! ## The worker pool over the store as a set of paths -/

/-- The store path of the input file `p`: the destination computed from the digest of its
contents (of no bytes, for a file that cannot be read). -/
def storePath [CaseTable] (sum256 : Digest) (contents : Str → Option (List Byte)) (o p : Str) :
    Str :=
  filename o (sum256 ((contents p).getD [])) p

/-- The shard directory of the input file `p`. -/
def shardDir (sum256 : Digest) (contents : Str → Option (List Byte)) (o p : Str) :
    Str :=
  dirname o (sum256 ((contents p).getD []))

/-- The input path a worker holds and has not yet tried to link. -/
def PC.path : PC → Option Str
  | .hash p => some p
  | .mkdir p _ _ => some p
  | .link p _ => some p
  | _ => none

/-- The input path a worker holds and whose shard directory it has not yet tried to make. -/
def PC.dirPath : PC → Option Str
  | .hash p => some p
  | .mkdir p _ _ => some p
  | _ => none

/-- The link a worker has still to try. -/
def PC.links [CaseTable] (sum256 : Digest) (contents : Str → Option (List Byte)) (o : Str) :
    PC → Multiset Str
  | .hash p => {storePath sum256 contents o p}
  | .mkdir _ _ f => {f}
  | .link _ f => {f}
  | _ => 0

/-- The increment of `duplicates` a worker has still to make for a link that already
existed. -/
def PC.adds : PC → Nat
  | .add => 1
  | _ => 0

/-- How many steps a worker is from waiting on the queue again, plus one (none when it has
ended). -/
def PC.stage : PC → Nat
  | .done => 0
  | .recv => 1
  | .add => 2
  | .link _ _ => 3
  | .mkdir _ _ _ => 4
  | .hash _ => 5

/-- What a worker holds comes from the queue `Q`, and the names it holds are the shard
directory and store path of its input path. -/
def PC.ok [CaseTable] (sum256 : Digest) (contents : Str → Option (List Byte)) (o : Str)
    (Q : List Str) : PC → Prop
  | .hash p => p ∈ Q
  | .mkdir p d f => p ∈ Q ∧ d = shardDir sum256 contents o p ∧ f = storePath sum256 contents o p
  | .link p f => p ∈ Q ∧ f = storePath sum256 contents o p
  | _ => True

/-- All the links still to be tried: those of the paths not yet sent and those the workers
hold. -/
def Machine.toLink [CaseTable] (sum256 : Digest) (contents : Str → Option (List Byte))
    (o : Str) (m : Machine (List Str)) : Multiset Str :=
  (m.pending.map (storePath sum256 contents o) : Multiset Str) +
    (m.workers.map (PC.links sum256 contents o)).sum

/-- The increments of `duplicates` still to be made. -/
def Machine.adds (m : Machine (List Str)) : Nat := (m.workers.map PC.adds).sum

/-- The number of links, among those of `R`, that will find their path existing when the
store starts as `fs`: all of them but one for each distinct path that `fs` lacks. -/
def toCome (fs : List Str) (R : Multiset Str) : Int :=
  (Multiset.card R : Int) - ((R.toFinset.filter (fun x => x ∉ fs)).card : Int)

/-- A link attempt: the input path, the store path, and whether `os.Link` found the store
path existing (the file is then counted as a duplicate) or made the link. -/
structure LinkEvent where
  path : Str
  file : Str
  existed : Bool
  deriving DecidableEq

/-- The link attempt that the next step of worker `i` makes, if that step is line 78 and does
not end the process. -/
def Machine.linkEvent [CaseTable]
    {σ : Type} (os : OS σ) (m : Machine σ) (i : Nat) : Option LinkEvent :=
  if m.crashed.isSome then none
  else
    match m.workers[i]? with
    | some (.link path file) =>
      match (os.Link m.fs path file).2 with
      | none => some ⟨path, file, false⟩
      | some err => if IsExist err then some ⟨path, file, true⟩ else none
    | _ => none

/-- The link attempts of a run under a schedule, in the order they are made. -/
def Machine.trace [CaseTable] {σ : Type} (os : OS σ) (output : Str) :
    Machine σ → List Nat → List LinkEvent
  | _, [] => []
  | m, i :: rest =>
    (m.linkEvent os i).toList ++ Machine.trace os output (Machine.step os output m i) rest

/-- The input path a worker holds and has not yet tried to link, as a multiset. -/
def PC.held : PC → Multiset Str
  | .hash p => {p}
  | .mkdir p _ _ => {p}
  | .link p _ => {p}
  | _ => 0

/-- The steps of worker `i` of the pool over `setOS`, case by case, each with the link
attempt it makes. -/
inductive Move [CaseTable] (sum256 : Digest) (contents : Str → Option (List Byte)) (o : Str)
    (i : Nat) : Machine (List Str) → Machine (List Str) → Option LinkEvent → Prop
  | stay (m) :
      (m.crashed.isSome = true ∨ m.workers[i]? = none ∨ m.workers[i]? = some .done) →
      Move sum256 contents o i m m none
  | crash (m) (p : Str) :
      m.workers[i]? = some (.hash p) → contents p = none →
      Move sum256 contents o i m { m with crashed := some .ENOENT } none
  | handoff (m) (p : Str) (rest : List Str) :
      m.workers[i]? = some .recv → m.pending = p :: rest →
      Move sum256 contents o i m
        { m with pending := rest, workers := m.workers.set i (.hash p) } none
  | close (m) :
      m.workers[i]? = some .recv → m.pending = [] →
      Move sum256 contents o i m { m with workers := m.workers.set i .done } none
  | hashed (m) (p : Str) (c : List Byte) (log : List Str) :
      m.workers[i]? = some (.hash p) → contents p = some c →
      Move sum256 contents o i m
        { m with workers := m.workers.set i
                   (.mkdir p (dirname o (sum256 c)) (filename o (sum256 c) p)),
                 log := log } none
  | mkdir (m) (p d f : Str) :
      m.workers[i]? = some (.mkdir p d f) →
      Move sum256 contents o i m
        { m with fs := withDir m.fs d, workers := m.workers.set i (.link p f) } none
  | linkNew (m) (p f : Str) :
      m.workers[i]? = some (.link p f) → f ∉ m.fs →
      Move sum256 contents o i m { m with fs := f :: m.fs, workers := m.workers.set i .recv }
        (some ⟨p, f, false⟩)
  | linkDup (m) (p f : Str) :
      m.workers[i]? = some (.link p f) → f ∈ m.fs →
      Move sum256 contents o i m { m with workers := m.workers.set i .add }
        (some ⟨p, f, true⟩)
  | add (m) :
      m.workers[i]? = some .add →
      Move sum256 contents o i m
        { m with duplicates := AddInt32 m.duplicates 1, workers := m.workers.set i .recv } none

/-- What holds of the worker pool, started on the queue `Q` and the store `s0`, at every
moment of every schedule. -/
structure Inv [CaseTable] (sum256 : Digest) (contents : Str → Option (List Byte)) (o : Str)
    (Q : List Str) (s0 : List Str) (m : Machine (List Str)) : Prop where
  pending_sub : ∀ p ∈ m.pending, p ∈ Q
  workers_ok : ∀ pc ∈ m.workers, PC.ok sum256 contents o Q pc
  count : m.duplicates =
    wrapInt32 (toCome s0 (Q.map (storePath sum256 contents o) : Multiset Str) - m.adds -
      toCome m.fs (m.toLink sum256 contents o))
  files_cover : ∀ q ∈ Q, q ∈ m.pending ∨ (∃ pc ∈ m.workers, pc.path = some q) ∨
    storePath sum256 contents o q ∈ m.fs
  dirs_cover : ∀ q ∈ Q, q ∈ m.pending ∨ (∃ pc ∈ m.workers, pc.dirPath = some q) ∨
    shardDir sum256 contents o q ∈ m.fs
  fixed : (∀ q ∈ Q, storePath sum256 contents o q ∈ s0 ∧ shardDir sum256 contents o q ∈ s0) →
    m.fs = s0

/-- What holds of the link attempts `T` made so far by the worker pool, started on the queue
`Q` and the store `s0`. -/
structure TraceInv [CaseTable] (sum256 : Digest) (contents : Str → Option (List Byte)) (o : Str)
    (Q : List Str) (s0 : List Str) (m : Machine (List Str)) (T : List LinkEvent) : Prop where
  fs_src : ∀ x ∈ m.fs, x ∈ s0 ∨ (∃ q, x = shardDir sum256 contents o q) ∨
    ∃ e ∈ T, e.existed = false ∧ e.file = x
  linked : ∀ e ∈ T, e.file ∈ m.fs
  init_sub : ∀ x ∈ s0, x ∈ m.fs
  order : ∀ T1 e T2, T = T1 ++ e :: T2 →
    (e.existed = false ↔ e.file ∉ s0 ∧ ∀ x ∈ T1, x.file ≠ e.file)
  paths : (Q : Multiset Str) =
    (m.pending : Multiset Str) + (m.workers.map PC.held).sum +
      (T.map LinkEvent.path : Multiset Str)
  files : ∀ e ∈ T, e.path ∈ Q ∧ e.file = storePath sum256 contents o e.path
  dups : m.duplicates =
    wrapInt32 (((T.filter (fun e => e.existed)).length : Int) - (m.adds : Int))

/-! ## Regular expressions: the default of flag `extension` -/

/-- The regular expressions the default extension pattern is built from. -/
inductive Regexp where
  | empty
  | char (c : Char)
  | cat (r t : Regexp)
  | alt (r t : Regexp)

/-- Every way the expression matches a prefix of `s`, as what is left of `s` after it. -/
def Regexp.rests : Regexp → Str → List Str
  | .empty, s => [s]
  | .char _, [] => []
  | .char c, x :: s => if x = c then [s] else []
  | .cat r t, s => (r.rests s).flatMap t.rests
  | .alt r t, s => r.rests s ++ t.rests s

/-- `re.MatchString(s)`: some substring of `s` matches the expression. -/
def Regexp.MatchString (re : Regexp) (s : Str) : Bool :=
  s.tails.any (fun t => !(re.rests t).isEmpty)

/-- A literal string as an expression. -/
def Regexp.literal : Str → Regexp
  | [] => .empty
  | c :: cs => .cat (.char c) (Regexp.literal cs)

/-- The alternation `r|t1|t2|...`. -/
def Regexp.alts : Regexp → List Regexp → Regexp
  | r, [] => r
  | r, t :: ts => .alt r (Regexp.alts t ts)

/-- The words of the default extension pattern. -/
def extensionWords : List Str :=
  ["jpg".toList, "jpeg".toList, "tiff".toList, "png".toList, "avi".toList, "mpg".toList,
   "mp4".toList, "mov".toList, "3gp".toList]

/-- The default of flag `extension` (line 26), `(jpg|jpeg|tiff|png|avi|mpg|mp4|mov|3gp)`,
compiled. -/
def extensionDefault : Regexp :=
  Regexp.alts (Regexp.literal "jpg".toList) (extensionWords.tail.map Regexp.literal)

/-- The extensions a reader of the default pattern expects it to accept. -/
def mediaExtensions : List Str := extensionWords.map (fun w => '.' :: w)

/-- The case table of the examples, whose paths are ASCII: `unicode.ToLower` restricted to
ASCII maps `A`-`Z` to `a`-`z` and leaves the other characters as they are. -/
instance asciiCase : CaseTable where
  lower := Char.toLower
  lower_separator := by
    intro c h
    simp only [Char.toLower] at h
    by_cases hc : c.toNat ≥ 65 ∧ c.toNat ≤ 90
    · rw [if_pos hc] at h
      obtain ⟨h1, h2⟩ := hc
      exfalso
      generalize c.toNat = n at h h1 h2
      interval_cases n <;> revert h <;> decide
    · rw [if_neg hc] at h
      exact h

/-- Patterns for the examples: the default extension pattern, the directory name
`Thumbnails` to skip, no file name to skip. -/
def demoConfig : Config :=
  { parallelism := 16, extensionRE := extensionDefault.MatchString,
    skipFileRE := fun _ => false, skipDirRE := fun name => decide (name = "Thumbnails".toList),
    output := "out".toList }

/-- A stand-in for the digest in the examples: 32 bytes that depend on the number of bytes
read only. -/
def demoSum (bytes : List Byte) : List Byte := List.replicate 32 (Fin.ofNat bytes.length)

/-- Input files for the examples: every path can be read and holds as many bytes as its name
has characters. -/
def demoContents (path : Str) : Option (List Byte) := some (List.replicate path.length 7)

/-- The stand-in digest, with its size. -/
def demoDigest : Digest := ⟨demoSum, fun _ => List.length_replicate _ _⟩

/-- The operating system of the examples. -/
def demoOS : OS (List Str) := setOS demoDigest demoContents

/-- An input tree for the examples: the directory `in` with the files `a.jpg` and `b.jpg`,
which hold the same bytes under `demoContents`. -/
def demoInput : List (Str × Entry) :=
  [("in".toList, Entry.dir "in".toList [.file "a.jpg".toList, .file "b.jpg".toList])]

/-- The store after a run over `demoInput`: one shard directory and one link. -/
def demoStore : List Str :=
  [("out/08/" ++ String.join (List.replicate 31 "08") ++ ".jpg").toList, "out/08".toList]

/-! ## Rendering and reading back hexadecimal digits -/

theorem hexByte_length (b : Byte) : (hexByte b).length = 2 := rfl

theorem SprintfX_length (bs : List Byte) : (SprintfX bs).length = 2 * bs.length := by
  induction bs with
  | nil => rfl
  | cons b bs ih => simp [SprintfX, hexByte_length, ih]; omega

theorem hexValue_ldigits (n : Fin 16) : hexValue (ldigits.getD n.val '0') = some n.val := by
  revert n; decide

theorem ldigits_lower (n : Fin 16) : ldigits.getD n.val '0' ∈ "0123456789abcdef".toList := by
  revert n; decide

theorem hexByte_lower (b : Byte) : ∀ c ∈ hexByte b, c ∈ "0123456789abcdef".toList := by
  intro c hc
  simp only [hexByte, List.mem_cons, List.mem_singleton, List.not_mem_nil, or_false] at hc
  rcases hc with rfl | rfl
  · exact ldigits_lower ⟨b.val / 16, by omega⟩
  · exact ldigits_lower ⟨b.val % 16, by omega⟩

theorem SprintfX_lower (bs : List Byte) : ∀ c ∈ SprintfX bs, c ∈ "0123456789abcdef".toList := by
  induction bs with
  | nil => intro c hc; simp [SprintfX] at hc
  | cons b bs ih =>
    intro c hc
    simp only [SprintfX, List.mem_append] at hc
    rcases hc with hc | hc
    · exact hexByte_lower b c hc
    · exact ih c hc

theorem unhex_hexByte (b : Byte) (s : Str) :
    unhex (hexByte b ++ s) = (unhex s).map (fun bs => b :: bs) := by
  have h1 := hexValue_ldigits ⟨b.val / 16, by omega⟩
  have h2 := hexValue_ldigits ⟨b.val % 16, by omega⟩
  simp only at h1 h2
  have hb : (Fin.ofNat (b.val / 16 * 16 + b.val % 16) : Byte) = b := by
    apply Fin.ext
    simp only [Fin.ofNat, Nat.div_add_mod']
    exact Nat.mod_eq_of_lt b.isLt
  simp only [hexByte, List.cons_append, List.nil_append, unhex, h1, h2, hb]
  rfl

theorem unhex_SprintfX (bs : List Byte) : unhex (SprintfX bs) = some bs := by
  induction bs with
  | nil => rfl
  | cons b bs ih => simp [SprintfX, unhex_hexByte, ih]

theorem SprintfX_injective {bs cs : List Byte} (h : SprintfX bs = SprintfX cs) : bs = cs := by
  have := unhex_SprintfX bs
  rw [h, unhex_SprintfX] at this
  exact (Option.some.inj this).symm

/-! ## The extension of a path -/

theorem extScan_spec (r : List Char) : ∀ acc : Str,
    (extScan r acc = [] ∧ ∀ s, s <+: r → '/' ∉ s → '.' ∉ s) ∨
    (∃ pre post, r = pre ++ '.' :: post ∧ '.' ∉ pre ∧ '/' ∉ pre ∧
      extScan r acc = '.' :: (pre.reverse ++ acc)) := by
  induction r with
  | nil =>
    intro acc
    left
    refine ⟨rfl, ?_⟩
    intro s hs _
    rw [List.prefix_nil] at hs
    simp [hs]
  | cons c r ih =>
    intro acc
    by_cases hsl : c = '/'
    · left
      subst hsl
      refine ⟨by simp [extScan], ?_⟩
      intro s hs hno
      cases s with
      | nil => simp
      | cons x s =>
        rw [List.cons_prefix_cons] at hs
        exact absurd (by simp [hs.1]) hno
    · by_cases hdot : c = '.'
      · right
        subst hdot
        exact ⟨[], r, rfl, by simp, by simp, by simp [extScan]⟩
      · have hstep : extScan (c :: r) acc = extScan r (c :: acc) := by
          simp [extScan, hsl, hdot]
        rcases ih (c :: acc) with ⟨he, hall⟩ | ⟨pre, post, hr, hd, hs, he⟩
        · left
          refine ⟨by rw [hstep, he], ?_⟩
          intro s hs hno
          cases s with
          | nil => simp
          | cons x s =>
            rw [List.cons_prefix_cons] at hs
            obtain ⟨hx, hs⟩ := hs
            subst hx
            have hno2 : '/' ∉ s := fun h => hno (List.mem_cons_of_mem _ h)
            have := hall s hs hno2
            simp only [List.mem_cons, not_or]
            exact ⟨fun h => hdot h.symm, this⟩
        · right
          refine ⟨c :: pre, post, by simp [hr], ?_, ?_, ?_⟩
          · simp only [List.mem_cons, not_or]; exact ⟨fun h => hdot h.symm, hd⟩
          · simp only [List.mem_cons, not_or]; exact ⟨fun h => hsl h.symm, hs⟩
          · rw [hstep, he]; simp

/-- `Ext` returns either nothing, when the final element of the path has no dot, or the
suffix of the path that starts at the final dot of its final element. -/
theorem Ext_spec (p : Str) :
    (Ext p = [] ∧ ∀ s, s <:+ p → '/' ∉ s → '.' ∉ s) ∨
    (∃ stem t, p = stem ++ '.' :: t ∧ '.' ∉ t ∧ '/' ∉ t ∧ Ext p = '.' :: t) := by
  rcases extScan_spec p.reverse [] with ⟨he, hall⟩ | ⟨pre, post, hr, hd, hs, he⟩
  · left
    refine ⟨he, ?_⟩
    intro s hs hno
    have := hall s.reverse (List.reverse_prefix.mpr hs) (by simpa using hno)
    simpa using this
  · right
    refine ⟨post.reverse, pre.reverse, ?_, by simpa using hd, by simpa using hs, ?_⟩
    · have := congrArg List.reverse hr
      simpa using this
    · simpa [Ext] using he

/-! ## Cleaning and joining paths -/

/-- The cases of the test table of `filepath.Clean`. -/
theorem Clean_examples :
    [Clean "abc".toList, Clean "abc/def".toList, Clean ".".toList, Clean "..".toList,
     Clean "../..".toList, Clean "../../abc".toList, Clean "/abc".toList, Clean "/".toList,
     Clean "".toList, Clean "abc/".toList, Clean "abc/def/".toList, Clean "./".toList,
     Clean "../".toList, Clean "../../".toList, Clean "/abc/".toList,
     Clean "abc//def//ghi".toList, Clean "//abc".toList, Clean "///abc".toList,
     Clean "//abc//".toList, Clean "abc//".toList, Clean "abc/./def".toList,
     Clean "/./abc/def".toList, Clean "abc/.".toList, Clean "abc/def/ghi/../jkl".toList,
     Clean "abc/def/../ghi/../jkl".toList, Clean "abc/def/..".toList,
     Clean "abc/def/../..".toList, Clean "/abc/def/../..".toList,
     Clean "abc/def/../../..".toList, Clean "/abc/def/../../..".toList,
     Clean "abc/def/../../../ghi/jkl/../../../mno".toList, Clean "/../abc".toList,
     Clean "abc/./../def".toList, Clean "abc//./../def".toList,
     Clean "abc/../../././../def".toList] =
    ["abc".toList, "abc/def".toList, ".".toList, "..".toList, "../..".toList,
     "../../abc".toList, "/abc".toList, "/".toList, ".".toList, "abc".toList,
     "abc/def".toList, ".".toList, "..".toList, "../..".toList, "/abc".toList,
     "abc/def/ghi".toList, "/abc".toList, "/abc".toList, "/abc".toList, "abc".toList,
     "abc/def".toList, "/abc/def".toList, "abc".toList, "abc/def/jkl".toList,
     "abc/jkl".toList, "abc".toList, ".".toList, "/".toList, "..".toList, "/".toList,
     "../../mno".toList, "/abc".toList, "def".toList, "def".toList, "../../def".toList] := by
  decide

/-- `filepath.Join` on directories that are not in clean form. -/
theorem Join_examples :
    [Join "out/".toList "ab".toList, Join ".".toList "ab".toList, Join "/".toList "ab".toList,
     Join "./out".toList "ab".toList, Join "".toList "ab".toList, Join "a".toList "".toList,
     Join "".toList "".toList, Join "a/b".toList "../c".toList] =
    ["out/ab".toList, "ab".toList, "/ab".toList, "out/ab".toList, "ab".toList, "a".toList,
     "".toList, "a/c".toList] := by
  decide

theorem splitPath_ne_nil : ∀ p : Str, splitPath p ≠ []
  | [] => by simp [splitPath]
  | c :: cs => by
    simp only [splitPath]
    split
    · simp
    · split <;> simp

theorem splitPath_append (b : Str) : ∀ a : Str,
    splitPath (a ++ '/' :: b) = splitPath a ++ splitPath b
  | [] => by simp [splitPath]
  | c :: cs => by
    have ih := splitPath_append b cs
    by_cases hc : c = '/'
    · simp [splitPath, hc, ih]
    · rcases hs : splitPath cs with _ | ⟨x, xs⟩
      · exact absurd hs (splitPath_ne_nil cs)
      · simp [splitPath, hc, ih, hs]

theorem splitPath_noslash : ∀ n : Str, '/' ∉ n → splitPath n = [n]
  | [], _ => rfl
  | c :: cs, h => by
    have hc : c ≠ '/' := fun e => h (by simp [e])
    have ih := splitPath_noslash cs (fun e => h (List.mem_cons_of_mem _ e))
    simp [splitPath, hc, ih]

theorem splitPath_joinPath : ∀ E : List Str, E ≠ [] → (∀ e ∈ E, '/' ∉ e) →
    splitPath (joinPath E) = E
  | [], h, _ => absurd rfl h
  | [x], _, h => by simpa [joinPath] using splitPath_noslash x (h x (by simp))
  | x :: y :: rest, _, h => by
    have ih := splitPath_joinPath (y :: rest) (by simp)
      (fun e he => h e (List.mem_cons_of_mem _ he))
    simp only [joinPath]
    rw [splitPath_append, ih, splitPath_noslash x (h x (by simp))]
    rfl

theorem joinPath_snoc (n : Str) : ∀ E : List Str,
    joinPath (E ++ [n]) = E.flatMap (fun e => e ++ ['/']) ++ n
  | [] => by simp [joinPath]
  | [x] => by simp [joinPath]
  | x :: y :: rest => by
    have ih := joinPath_snoc n (y :: rest)
    simp only [List.cons_append] at ih ⊢
    simp only [joinPath, ih]
    simp

theorem joinPath_slash : ∀ E : List Str, E ≠ [] →
    joinPath E ++ ['/'] = E.flatMap (fun e => e ++ ['/'])
  | [], h => absurd rfl h
  | [x], _ => by simp [joinPath]
  | x :: y :: rest, _ => by
    have ih := joinPath_slash (y :: rest) (by simp)
    simp only [joinPath, List.flatMap_cons, List.append_assoc, List.cons_append] at ih ⊢
    rw [ih]
    simp

theorem cleanStep_plain (r : Bool) (st : List Str) (n : Str) (h : plain n) :
    cleanStep r st n = n :: st := by
  obtain ⟨h1, _, h3, h4⟩ := h
  simp [cleanStep, h1, h3, h4]

theorem foldl_plain (r : Bool) : ∀ (names st : List Str), (∀ n ∈ names, plain n) →
    names.foldl (cleanStep r) st = names.reverse ++ st
  | [], st, _ => by simp
  | n :: rest, st, h => by
    rw [List.foldl_cons, cleanStep_plain r st n (h n (by simp)),
      foldl_plain r rest _ (fun m hm => h m (List.mem_cons_of_mem _ hm))]
    simp

theorem foldl_dotdot : ∀ (k j : Nat),
    (List.replicate k ['.', '.']).foldl (cleanStep false) (List.replicate j ['.', '.']) =
      List.replicate (j + k) ['.', '.']
  | 0, j => by simp
  | k + 1, j => by
    have ih := foldl_dotdot k (j + 1)
    have hstep : cleanStep false (List.replicate j ['.', '.']) ['.', '.'] =
        List.replicate (j + 1) ['.', '.'] := by
      cases j with
      | zero => simp [cleanStep]
      | succ j => simp [cleanStep, List.replicate_succ]
    rw [List.replicate_succ, List.foldl_cons, hstep, ih]
    congr 1
    omega

theorem Kept_step (r : Bool) (st : List Str) (e : Str) (hst : Kept r st) (he : '/' ∉ e) :
    Kept r (cleanStep r st e) := by
  obtain ⟨k, names, rfl, hk, hn⟩ := hst
  by_cases h1 : e = [] ∨ e = ['.']
  · simp only [cleanStep, h1, if_true]
    exact ⟨k, names, rfl, hk, hn⟩
  · by_cases h2 : e = ['.', '.']
    · subst h2
      cases names with
      | nil =>
        cases k with
        | zero =>
          cases r
          · exact ⟨1, [], by simp [cleanStep], by simp, by simp⟩
          · exact ⟨0, [], by simp [cleanStep], by simp, by simp⟩
        | succ k =>
          refine ⟨k + 2, [], ?_, ?_, by simp⟩
          · simp [cleanStep, List.replicate_succ]
          · intro hr; exact absurd (hk hr) (by simp)
      | cons n names =>
        have hp := hn n (by simp)
        refine ⟨k, names, ?_, hk, fun m hm => hn m (List.mem_cons_of_mem _ hm)⟩
        simp [cleanStep, hp.2.2.2]
    · have hp : plain e := ⟨fun h => h1 (Or.inl h), he, fun h => h1 (Or.inr h), h2⟩
      rw [cleanStep_plain r _ e hp]
      refine ⟨k, e :: names, by simp, hk, ?_⟩
      intro m hm
      rcases List.mem_cons.mp hm with rfl | hm
      · exact hp
      · exact hn m hm

theorem splitPath_noslash_mem : ∀ (p : Str) (e : Str), e ∈ splitPath p → '/' ∉ e
  | [], e, h => by
    simp only [splitPath, List.mem_singleton] at h
    subst h; simp
  | c :: cs, e, h => by
    have ih := splitPath_noslash_mem cs
    by_cases hc : c = '/'
    · simp only [splitPath, hc, if_true, List.mem_cons] at h
      rcases h with rfl | h
      · simp
      · exact ih e h
    · rcases hs : splitPath cs with _ | ⟨x, xs⟩
      · exact absurd hs (splitPath_ne_nil cs)
      · simp only [splitPath, hc, if_false, hs, List.mem_cons] at h
        rcases h with rfl | h
        · have hx := ih x (by rw [hs]; simp)
          simp only [List.mem_cons, not_or]
          exact ⟨fun e => hc e.symm, hx⟩
        · exact ih e (by rw [hs]; exact List.mem_cons_of_mem _ h)

theorem Kept_foldl (r : Bool) : ∀ (es st : List Str), Kept r st → (∀ e ∈ es, '/' ∉ e) →
    Kept r (es.foldl (cleanStep r) st)
  | [], st, h, _ => h
  | e :: es, st, h, hes => by
    rw [List.foldl_cons]
    exact Kept_foldl r es _ (Kept_step r st e h (hes e (by simp)))
      (fun x hx => hes x (List.mem_cons_of_mem _ hx))

theorem Kept_cleanElems (p : Str) :
    Kept (decide (p.head? = some '/')) (cleanElems p).reverse := by
  simp only [cleanElems, List.reverse_reverse]
  exact Kept_foldl _ _ [] ⟨0, [], rfl, fun _ => rfl, by simp⟩ (splitPath_noslash_mem p)

theorem Kept_elem (r : Bool) (st : List Str) (h : Kept r st) :
    ∀ e ∈ st, e ≠ [] ∧ '/' ∉ e ∧ e ≠ ['.'] := by
  obtain ⟨k, names, rfl, _, hn⟩ := h
  intro e he
  rcases List.mem_append.mp he with h1 | h1
  · exact ⟨(hn e h1).1, (hn e h1).2.1, (hn e h1).2.2.1⟩
  · rw [List.eq_of_mem_replicate h1]
    decide

theorem Kept_foldl_reverse (r : Bool) (st : List Str) (h : Kept r st) :
    st.reverse.foldl (cleanStep r) [] = st := by
  obtain ⟨k, names, rfl, hk, hn⟩ := h
  rw [List.reverse_append, List.foldl_append, List.reverse_replicate]
  have h1 : (List.replicate k ['.', '.']).foldl (cleanStep r) [] =
      List.replicate k ['.', '.'] := by
    cases r with
    | true => rw [hk rfl]; rfl
    | false => simpa using foldl_dotdot k 0
  rw [h1, foldl_plain r _ _ (fun n hn1 => hn n (List.mem_reverse.mp hn1))]
  simp

theorem joinPath_head : ∀ (x : Str) (rest : List Str), x ≠ [] →
    (joinPath (x :: rest)).head? = x.head?
  | [], _, h => absurd rfl h
  | _ :: _, [], _ => rfl
  | _ :: _, _ :: _, _ => rfl

theorem joinPath_length : ∀ (x y : Str) (rest : List Str),
    x.length + 1 ≤ (joinPath (x :: y :: rest)).length := by
  intro x y rest
  simp [joinPath]

theorem joinPath_facts (E : List Str) (hne : E ≠ [])
    (hE : ∀ e ∈ E, e ≠ [] ∧ '/' ∉ e ∧ e ≠ ['.']) :
    joinPath E ≠ [] ∧ joinPath E ≠ ['.'] ∧ joinPath E ≠ ['/'] ∧
      (joinPath E).head? ≠ some '/' := by
  cases E with
  | nil => exact absurd rfl hne
  | cons x rest =>
    obtain ⟨hx1, hx2, hx3⟩ := hE x (by simp)
    have hhead : (joinPath (x :: rest)).head? ≠ some '/' := by
      rw [joinPath_head x rest hx1]
      cases x with
      | nil => exact absurd rfl hx1
      | cons c cs =>
        simp only [List.head?_cons, ne_eq, Option.some.injEq]
        intro hc
        exact hx2 (by simp [hc])
    refine ⟨?_, ?_, ?_, hhead⟩
    · intro h; rw [h] at hhead
      cases rest with
      | nil => exact hx1 (by simpa [joinPath] using h)
      | cons y rest =>
        have := joinPath_length x y rest
        rw [h] at this
        simp at this
    · intro h
      cases rest with
      | nil => exact hx3 (by simpa [joinPath] using h)
      | cons y rest =>
        have := joinPath_length x y rest
        rw [h] at this
        have : x.length = 0 := by simpa using this
        exact hx1 (List.length_eq_zero.mp this)
    · intro h
      rw [h] at hhead
      exact hhead rfl

theorem dirPrefix_eq (p : Str) :
    dirPrefix p = (if p.head? = some '/' then ['/'] else []) ++
      (cleanElems p).flatMap (fun e => e ++ ['/']) := by
  have hk := Kept_elem _ _ (Kept_cleanElems p)
  have hE : ∀ e ∈ cleanElems p, e ≠ [] ∧ '/' ∉ e ∧ e ≠ ['.'] :=
    fun e he => hk e (List.mem_reverse.mpr he)
  by_cases hr : p.head? = some '/'
  · by_cases hne : cleanElems p = []
    · simp [dirPrefix, Clean, hr, hne, joinPath]
    · have hf := joinPath_facts _ hne hE
      have h1 : ('/' :: joinPath (cleanElems p)) ≠ ['/'] := by
        intro h; exact hf.1 (by simpa using h)
      simp only [dirPrefix, Clean, hr, if_true, h1, if_false]
      rw [← joinPath_slash _ hne]
      simp
  · by_cases hne : cleanElems p = []
    · simp [dirPrefix, Clean, hr, hne]
    · have hf := joinPath_facts _ hne hE
      simp only [dirPrefix, Clean, hr, hne, if_false, hf.2.1, hf.2.2.1, List.nil_append]
      exact joinPath_slash _ hne

theorem reparse (r : Bool) (st : List Str) (h : Kept r st) (hne : st ≠ []) :
    (((if r = true then ['/'] else []) ++ joinPath st.reverse).head? = some '/' ↔ r = true) ∧
    cleanElems ((if r = true then ['/'] else []) ++ joinPath st.reverse) = st.reverse := by
  have hE : ∀ e ∈ st.reverse, e ≠ [] ∧ '/' ∉ e ∧ e ≠ ['.'] :=
    fun e he => Kept_elem r st h e (List.mem_reverse.mp he)
  have hne2 : st.reverse ≠ [] := by simpa using hne
  have hf := joinPath_facts _ hne2 hE
  have hsp := splitPath_joinPath _ hne2 (fun e he => (hE e he).2.1)
  cases r with
  | true =>
    refine ⟨by simp, ?_⟩
    have hs : splitPath ('/' :: joinPath st.reverse) = [] :: st.reverse := by
      simp [splitPath, hsp]
    have : cleanStep true [] [] = [] := by simp [cleanStep]
    simp only [if_true, List.singleton_append, cleanElems, List.head?_cons, hs,
      List.foldl_cons, decide_True, this]
    rw [Kept_foldl_reverse true st h]
  | false =>
    have hh : ((if false = true then ['/'] else []) ++ joinPath st.reverse).head? ≠ some '/' := by
      simpa using hf.2.2.2
    refine ⟨by simpa using hf.2.2.2, ?_⟩
    simp only [Bool.false_eq_true, if_false, List.nil_append] at hh ⊢
    simp only [cleanElems, hh, decide_False, hsp]
    rw [Kept_foldl_reverse false st h]

theorem cleanElems_snoc (o n : Str) (ho : o ≠ []) (hn : plain n) :
    (o ++ '/' :: n).head? = o.head? ∧ cleanElems (o ++ '/' :: n) = cleanElems o ++ [n] := by
  have hh : (o ++ '/' :: n).head? = o.head? := by
    cases o with
    | nil => exact absurd rfl ho
    | cons c cs => rfl
  refine ⟨hh, ?_⟩
  simp only [cleanElems, hh, splitPath_append, splitPath_noslash n hn.2.1, List.foldl_append,
    List.foldl_cons, List.foldl_nil, cleanStep_plain _ _ n hn, List.reverse_cons]

/-- `filepath.Join` of a directory and a plain element. -/
theorem Join_plain (o n : Str) (hn : plain n) : Join o n = dirPrefix o ++ n := by
  by_cases ho : o = []
  · subst ho
    have h1 : n.head? ≠ some '/' := by
      cases n with
      | nil => simp
      | cons c cs =>
        simp only [List.head?_cons, ne_eq, Option.some.injEq]
        intro hc; exact hn.2.1 (by simp [hc])
    have h2 : cleanElems n = [n] := by
      simp [cleanElems, h1, splitPath_noslash n hn.2.1, cleanStep_plain _ _ n hn]
    have h3 : dirPrefix ([] : Str) = [] := by decide
    simp [Join, hn.1, Clean, h1, h2, joinPath, h3]
  · obtain ⟨hh, hE⟩ := cleanElems_snoc o n ho hn
    rw [dirPrefix_eq]
    simp only [Join, ne_eq, ho, not_false_eq_true, if_true, Clean, hh, hE]
    by_cases hr : o.head? = some '/'
    · simp [hr, joinPath_snoc]
    · simp [hr, joinPath_snoc]

/-- The directory made by `filepath.Join` of a directory and a plain element is in clean
form. -/
theorem dirPrefix_snoc (o n : Str) (hn : plain n) :
    dirPrefix (dirPrefix o ++ n) = dirPrefix o ++ n ++ ['/'] := by
  have hk := Kept_cleanElems o
  have hk2 : Kept (decide (o.head? = some '/')) (n :: (cleanElems o).reverse) := by
    obtain ⟨k, names, he, hk1, hn1⟩ := hk
    refine ⟨k, n :: names, by simp [he], hk1, ?_⟩
    intro m hm
    rcases List.mem_cons.mp hm with rfl | hm
    · exact hn
    · exact hn1 m hm
  obtain ⟨h1, h2⟩ := reparse _ _ hk2 (by simp)
  have hb : dirPrefix o ++ n =
      (if decide (o.head? = some '/') = true then ['/'] else []) ++
        joinPath (n :: (cleanElems o).reverse).reverse := by
    rw [dirPrefix_eq]
    simp [joinPath_snoc]
  rw [dirPrefix_eq (dirPrefix o ++ n), hb, h2]
  have h3 : (((if decide (o.head? = some '/') = true then ['/'] else []) ++
      joinPath (n :: (cleanElems o).reverse).reverse).head? = some '/') ↔
      o.head? = some '/' := by
    rw [h1]; simp
  simp only [h3]
  rw [← hb, dirPrefix_eq]
  simp

theorem Join_Join (o s f : Str) (hs : plain s) (hf : plain f) :
    Join (Join o s) f = dirPrefix o ++ s ++ '/' :: f := by
  rw [Join_plain o s hs, Join_plain _ f hf, dirPrefix_snoc o s hs]
  simp


/-! ## Store paths -/

theorem lower_hex_ne (c : Char) (hc : c ∈ "0123456789abcdef".toList) : c ≠ '/' ∧ c ≠ '.' := by
  constructor <;> (intro h; subst h; revert hc; decide)

theorem plain_hex_append (x t : Str) (hx : x ≠ [])
    (hxl : ∀ c ∈ x, c ∈ "0123456789abcdef".toList) (ht : '/' ∉ t) : plain (x ++ t) := by
  cases x with
  | nil => exact absurd rfl hx
  | cons c xs =>
    have hc := lower_hex_ne c (hxl c (List.mem_cons_self _ _))
    refine ⟨by simp, ?_, ?_, ?_⟩
    · intro hmem
      rcases List.mem_append.mp hmem with h | h
      · exact (lower_hex_ne _ (hxl _ h)).1 rfl
      · exact ht h
    · intro h
      have := (List.cons.inj h).1
      exact hc.2 this
    · intro h
      have := (List.cons.inj h).1
      exact hc.2 this

theorem slash_not_mem_Ext (p : Str) : '/' ∉ Ext p := by
  rcases Ext_spec p with ⟨h, _⟩ | ⟨stem, t, _, _, ht, h⟩
  · rw [h]; simp
  · rw [h]
    simp only [List.mem_cons, not_or]
    exact ⟨by decide, ht⟩

theorem slash_not_mem_ToLower [CaseTable] (s : Str) (hs : '/' ∉ s) : '/' ∉ ToLower s := by
  intro h
  obtain ⟨c, hc, hl⟩ := List.mem_map.mp h
  exact hs (CaseTable.lower_separator c hl ▸ hc)

theorem plain_shard (h : List Byte) (hlen : h.length = 32) : plain (SprintfX (h.take 1)) := by
  have := plain_hex_append (SprintfX (h.take 1)) [] ?_ (SprintfX_lower _) (by simp)
  · simpa using this
  · intro he
    have hl := SprintfX_length (h.take 1)
    rw [he] at hl
    simp [hlen] at hl

theorem plain_file [CaseTable] (h : List Byte) (p : Str) (hlen : h.length = 32) :
    plain (SprintfX (h.drop 1) ++ ToLower (Ext p)) := by
  apply plain_hex_append _ _ ?_ (SprintfX_lower _)
    (slash_not_mem_ToLower _ (slash_not_mem_Ext p))
  intro he
  have hl := SprintfX_length (h.drop 1)
  rw [he] at hl
  simp [hlen] at hl

theorem dirname_eq (o : Str) (h : List Byte) (hlen : h.length = 32) :
    dirname o h = dirPrefix o ++ SprintfX (h.take 1) :=
  Join_plain o _ (plain_shard h hlen)

theorem filename_eq [CaseTable] (o : Str) (h : List Byte) (p : Str) (hlen : h.length = 32) :
    filename o h p =
      dirPrefix o ++
        (SprintfX (h.take 1) ++ '/' :: (SprintfX (h.drop 1) ++ ToLower (Ext p))) := by
  simp only [filename, dirname]
  rw [Join_Join o _ _ (plain_shard h hlen) (plain_file h p hlen)]
  simp

theorem dirPrefix_of_clean (o : Str) (hc : Clean o = o) (h1 : o ≠ ['.']) (h2 : o ≠ ['/']) :
    dirPrefix o = o ++ ['/'] := by
  simp [dirPrefix, hc, h1, h2]

/-- C1, as stated, fails: for the output directory `out/` the destination is
`out/ab/abab...ab.jpg`, where the claim has `out//ab/abab...ab.jpg`. -/
theorem C1_counterexample :
    filename "out/".toList (List.replicate 32 (171 : Byte)) "in/IMG.JPG".toList =
      ("out/ab/" ++ String.join (List.replicate 31 "ab") ++ ".jpg").toList ∧
    filename "out/".toList (List.replicate 32 (171 : Byte)) "in/IMG.JPG".toList ≠
      "out/".toList ++ '/' :: (SprintfX [(171 : Byte)] ++
        '/' :: (SprintfX (List.replicate 31 (171 : Byte)) ++
          ToLower (Ext "in/IMG.JPG".toList))) := by
  decide

/-- C1, amended: for a 32-byte fingerprint `h = b :: rest`, an output directory `o` and a
source path `p`, the worker's destination is `d<shard>/<remainder><ext>`, where `d` is the
output directory in clean form followed by a separator (nothing when the clean form is `.`,
the separator alone when it is the root), so that the destination is
`o/<shard>/<remainder><ext>` when `o` is in clean form and is neither `.` nor the root; the
shard is the first byte as exactly 2 lowercase hexadecimal digits, the remainder is the other
31 bytes as exactly 62 lowercase hexadecimal digits (both read back to the bytes they
render), and `ext` is the extension of `p` with every character lower-cased, the extension
being empty when the final element of `p` has no dot and otherwise the suffix of `p` from the
final dot of its final element. -/
theorem C1_destination [CaseTable] (o : Str) (h : List Byte) (p : Str) (hlen : h.length = 32) :
    ∃ (b : Byte) (rest : List Byte),
      h = b :: rest ∧ rest.length = 31 ∧
      filename o h p =
        dirPrefix o ++ (SprintfX [b] ++ '/' :: (SprintfX rest ++ ToLower (Ext p))) ∧
      (Clean o = o → o ≠ ['.'] → o ≠ ['/'] →
        filename o h p =
          o ++ '/' :: (SprintfX [b] ++ '/' :: (SprintfX rest ++ ToLower (Ext p)))) ∧
      ToLower (Ext p) = (Ext p).map CaseTable.lower ∧
      (SprintfX [b]).length = 2 ∧ (∀ c ∈ SprintfX [b], c ∈ "0123456789abcdef".toList) ∧
      unhex (SprintfX [b]) = some [b] ∧
      (SprintfX rest).length = 62 ∧ (∀ c ∈ SprintfX rest, c ∈ "0123456789abcdef".toList) ∧
      unhex (SprintfX rest) = some rest ∧
      ((Ext p = [] ∧ ∀ s, s <:+ p → '/' ∉ s → '.' ∉ s) ∨
        (∃ stem t, p = stem ++ '.' :: t ∧ '.' ∉ t ∧ '/' ∉ t ∧ Ext p = '.' :: t)) := by
  cases h with
  | nil => simp at hlen
  | cons b rest =>
    have hr : rest.length = 31 := by simpa using hlen
    have hf := filename_eq o (b :: rest) p hlen
    simp only [List.take_succ_cons, List.take_zero, List.drop_succ_cons, List.drop_zero] at hf
    refine ⟨b, rest, rfl, hr, hf, ?_, rfl, ?_, SprintfX_lower _, unhex_SprintfX _, ?_,
      SprintfX_lower _, unhex_SprintfX _, Ext_spec p⟩
    · intro hc h1 h2
      rw [hf, dirPrefix_of_clean o hc h1 h2]
      simp
    · simp [SprintfX_length]
    · simp [SprintfX_length, hr]

theorem C1_destination_witness :
    (List.replicate 32 (171 : Byte)).length = 32 ∧
    Clean "out".toList = "out".toList ∧
    filename "out".toList (List.replicate 32 (171 : Byte)) "in/IMG.JPG".toList =
      ("out/ab/" ++ String.join (List.replicate 31 "ab") ++ ".jpg").toList := by
  refine ⟨by decide, by decide, ?_⟩
  obtain ⟨b, rest, hb, -, -, hf, -⟩ :=
    C1_destination "out".toList (List.replicate 32 (171 : Byte)) "in/IMG.JPG".toList (by decide)
  rw [hf (by decide) (by decide) (by decide)]
  have h1 : b = 171 := by
    have := congrArg List.head? hb
    simpa [List.replicate] using this.symm
  have h2 : rest = List.replicate 31 (171 : Byte) := by
    have := congrArg List.tail hb
    simpa [List.replicate] using this.symm
  subst h1 h2
  decide

/-- C8: for a fixed output directory and two 32-byte fingerprints, two files get the same
store path exactly when their fingerprints are equal and their lower-cased extensions are
equal; nothing else of the source path enters the store path. -/
theorem C8_same_store_path_iff [CaseTable] (o : Str) (h h' : List Byte) (p p' : Str)
    (hlen : h.length = 32) (hlen' : h'.length = 32) :
    filename o h p = filename o h' p' ↔ h = h' ∧ ToLower (Ext p) = ToLower (Ext p') := by
  constructor
  · intro heq
    rw [filename_eq o h p hlen, filename_eq o h' p' hlen'] at heq
    have h2 := List.append_cancel_left heq
    have l1 : (SprintfX (h.take 1)).length = (SprintfX (h'.take 1)).length := by
      simp [SprintfX_length, hlen, hlen']
    obtain ⟨e1, e2⟩ := List.append_inj h2 l1
    have h3 := List.cons.inj e2
    have l2 : (SprintfX (h.drop 1)).length = (SprintfX (h'.drop 1)).length := by
      simp [SprintfX_length, hlen, hlen']
    obtain ⟨e3, e4⟩ := List.append_inj h3.2 l2
    refine ⟨?_, e4⟩
    rw [← List.take_append_drop 1 h, ← List.take_append_drop 1 h',
      SprintfX_injective e1, SprintfX_injective e3]
  · rintro ⟨rfl, he⟩
    rw [filename_eq o h p hlen, filename_eq o h p' hlen', he]

theorem C8_same_store_path_iff_witness :
    (List.replicate 32 (1 : Byte)).length = 32 ∧ (List.replicate 32 (1 : Byte)).length = 32 ∧
    filename "out".toList (List.replicate 32 (1 : Byte)) "x/a.JPG".toList =
      filename "out".toList (List.replicate 32 (1 : Byte)) "y/b.jpg".toList ∧
    filename "out".toList (List.replicate 32 (1 : Byte)) "x/a.jpg".toList ≠
      filename "out".toList (List.replicate 32 (1 : Byte)) "x/a.png".toList :=
  ⟨by decide, by decide,
    (C8_same_store_path_iff "out".toList _ _ "x/a.JPG".toList "y/b.jpg".toList
      (by decide) (by decide)).mpr ⟨rfl, by decide⟩,
    fun heq => absurd ((C8_same_store_path_iff "out".toList _ _ "x/a.jpg".toList
      "x/a.png".toList (by decide) (by decide)).mp heq).2 (by decide)⟩

/-! ## The default extension pattern -/

theorem rests_literal (w : Str) : ∀ t : Str, (Regexp.literal w).rests t ≠ [] ↔ w <+: t := by
  induction w with
  | nil => intro t; simp [Regexp.literal, Regexp.rests]
  | cons c cs ih =>
    intro t
    cases t with
    | nil => simp [Regexp.literal, Regexp.rests]
    | cons x s =>
      by_cases hx : x = c
      · subst hx
        simp only [Regexp.literal, Regexp.rests, if_true, List.flatMap_cons, List.flatMap_nil,
          List.append_nil, List.cons_prefix_cons, true_and]
        exact ih s
      · have hx2 : ¬ c = x := fun h => hx h.symm
        simp [Regexp.literal, Regexp.rests, hx, hx2, List.cons_prefix_cons]

theorem rests_alts (ts : List Regexp) : ∀ (r : Regexp) (t : Str),
    (Regexp.alts r ts).rests t ≠ [] ↔ r.rests t ≠ [] ∨ ∃ x ∈ ts, x.rests t ≠ [] := by
  induction ts with
  | nil => intro r t; simp [Regexp.alts]
  | cons u us ih =>
    intro r t
    simp only [Regexp.alts, Regexp.rests, ne_eq, List.append_eq_nil, not_and_or,
      List.mem_cons, exists_eq_or_imp]
    rw [← ne_eq, ← ne_eq, ih u t]

theorem MatchString_iff (re : Regexp) (s : Str) :
    re.MatchString s = true ↔ ∃ t, t <:+ s ∧ re.rests t ≠ [] := by
  simp [Regexp.MatchString, List.any_eq_true, List.mem_tails]

theorem extensionDefault_iff (e : Str) :
    extensionDefault.MatchString e = true ↔ ∃ w ∈ extensionWords, w <:+: e := by
  rw [MatchString_iff]
  have hw : extensionWords = "jpg".toList :: extensionWords.tail := rfl
  constructor
  · rintro ⟨t, hts, hm⟩
    rw [extensionDefault, rests_alts] at hm
    rcases hm with hm | ⟨x, hx, hm⟩
    · rw [rests_literal] at hm
      exact ⟨"jpg".toList, by rw [hw]; exact List.mem_cons_self _ _,
        List.infix_iff_prefix_suffix.mpr ⟨t, hm, hts⟩⟩
    · obtain ⟨w, hwmem, rfl⟩ := List.mem_map.mp hx
      rw [rests_literal] at hm
      exact ⟨w, by rw [hw]; exact List.mem_cons_of_mem _ hwmem,
        List.infix_iff_prefix_suffix.mpr ⟨t, hm, hts⟩⟩
  · rintro ⟨w, hwmem, hinf⟩
    obtain ⟨t, hpre, hts⟩ := List.infix_iff_prefix_suffix.mp hinf
    refine ⟨t, hts, ?_⟩
    rw [extensionDefault, rests_alts]
    rw [hw] at hwmem
    rcases List.mem_cons.mp hwmem with rfl | hwmem
    · left; exact (rests_literal _ t).mpr hpre
    · right
      exact ⟨Regexp.literal w, List.mem_map.mpr ⟨w, hwmem, rfl⟩, (rests_literal w t).mpr hpre⟩

/-- C10, as stated, fails: with the default pattern the path `photo.png~`, whose lower-cased
extension `.png~` is none of the nine listed extensions, passes the extension filter. -/
theorem C10_counterexample :
    extensionDefault.MatchString (ToLower (Ext "photo.png~".toList)) = true ∧
    ToLower (Ext "photo.png~".toList) ∉ mediaExtensions := by
  decide

/-- C10, amended: with the default pattern a path passes the extension filter of line 105
exactly when its lower-cased extension contains one of the words jpg, jpeg, tiff, png, avi,
mpg, mp4, mov, 3gp as a substring; in particular each of the nine listed extensions passes. -/
theorem C10_default_extension_filter [CaseTable] (path : Str) :
    (extensionDefault.MatchString (ToLower (Ext path)) = true ↔
      ∃ w ∈ extensionWords, w <:+: ToLower (Ext path)) ∧
    (ToLower (Ext path) ∈ mediaExtensions →
      extensionDefault.MatchString (ToLower (Ext path)) = true) := by
  refine ⟨extensionDefault_iff _, ?_⟩
  intro hmem
  rw [extensionDefault_iff]
  obtain ⟨w, hw, he⟩ := List.mem_map.mp hmem
  exact ⟨w, hw, by rw [← he]; exact ⟨['.'], [], by simp⟩⟩

theorem C10_default_extension_filter_witness :
    ToLower (Ext "a/B.JPEG".toList) ∈ mediaExtensions ∧
    extensionDefault.MatchString (ToLower (Ext "a/B.JPEG".toList)) = true :=
  ⟨by decide, (C10_default_extension_filter "a/B.JPEG".toList).2 (by decide)⟩

/-! ## Counters -/

theorem wrapInt32_add_wrap (a b : Int) : wrapInt32 (wrapInt32 a + b) = wrapInt32 (a + b) := by
  simp only [wrapInt32]; omega

theorem wrapInt32_of_range (a : Int) (h1 : -2147483648 ≤ a) (h2 : a < 2147483648) :
    wrapInt32 a = a := by
  simp only [wrapInt32]; omega

theorem incInt32_iterate_zero (n : Nat) : incInt32^[n] 0 = wrapInt32 n := by
  induction n with
  | zero => rfl
  | succ n ih =>
    rw [Function.iterate_succ_apply', ih, incInt32, wrapInt32_add_wrap]
    push_cast
    rfl

/-! ## The traversal of a readable tree -/

mutual
theorem walk_readable [CaseTable] (cfg : Config) : ∀ (e : Entry) (path : Str) (st : Producer),
    e.readable = true →
    (walk (walkFn cfg) path e st).1.queue = st.queue ++ accepted cfg path e ∧
    (walk (walkFn cfg) path e st).1.files = incInt32^[(accepted cfg path e).length] st.files ∧
    (walk (walkFn cfg) path e st).1.skipped = incInt32^[rejections cfg path e] st.skipped ∧
    ((walk (walkFn cfg) path e st).2 = none ∨
      ((walk (walkFn cfg) path e st).2 = some .SkipDir ∧ ∃ n es, e = .dir n es))
  | .file name, path, st, _ => by
    by_cases h1 : cfg.extensionRE (ToLower (Ext path)) = true
    · by_cases h2 : cfg.skipFileRE name = true
      · simp [walk, walkFn, accepted, rejections, h1, h2, Producer.skip]
      · simp [walk, walkFn, accepted, rejections, h1, h2]
    · simp [walk, walkFn, accepted, rejections, h1, Producer.skip]
  | .dir name entries, path, st, h => by
    by_cases h1 : cfg.skipDirRE name = true
    · simp [walk, walkFn, accepted, rejections, h1, Producer.skip]
    · have hr : readableAll entries = true := by simpa [Entry.readable] using h
      have ih := walkNames_readable cfg entries path st hr
      simp only [walk, walkFn, accepted, rejections, h1, if_true, if_false, Bool.false_eq_true]
      exact ⟨ih.1, ih.2.1, ih.2.2.1, Or.inl ih.2.2.2⟩
  | .unreadable _ _, _, _, h => by simp [Entry.readable] at h
  | .broken _ _, _, _, h => by simp [Entry.readable] at h
theorem walkNames_readable [CaseTable]
    (cfg : Config) : ∀ (es : List Entry) (path : Str) (st : Producer),
    readableAll es = true →
    (walkNames (walkFn cfg) path es st).1.queue = st.queue ++ acceptedIn cfg path es ∧
    (walkNames (walkFn cfg) path es st).1.files =
      incInt32^[(acceptedIn cfg path es).length] st.files ∧
    (walkNames (walkFn cfg) path es st).1.skipped = incInt32^[rejectionsIn cfg path es] st.skipped ∧
    (walkNames (walkFn cfg) path es st).2 = none
  | [], _, _, _ => by simp [walkNames, acceptedIn, rejectionsIn]
  | .file name :: rest, path, st, h => by
    have hr : readableAll rest = true := by
      simp only [readableAll, Bool.and_eq_true] at h; exact h.2
    have ih1 := walk_readable cfg (.file name) (Join path name) st rfl
    have ih2 := walkNames_readable cfg rest path (walk (walkFn cfg) (Join path name) (.file name) st).1 hr
    have hnone : (walk (walkFn cfg) (Join path name) (.file name) st).2 = none := by
      rcases ih1.2.2.2 with h0 | ⟨_, n, es, hcontra⟩
      · exact h0
      · cases hcontra
    simp only [walkNames, hnone, acceptedIn, rejectionsIn, Entry.name]
    rw [ih2.1, ih2.2.1, ih2.2.2.1, ih1.1, ih1.2.1, ih1.2.2.1]
    refine ⟨by simp, ?_, ?_, ih2.2.2.2⟩
    · rw [List.length_append, Nat.add_comm, Function.iterate_add_apply]
    · rw [Nat.add_comm, Function.iterate_add_apply]
  | .dir name entries :: rest, path, st, h => by
    have hr : readableAll rest = true := by
      simp only [readableAll, Bool.and_eq_true] at h; exact h.2
    have hd : (Entry.dir name entries).readable = true := by
      simp only [readableAll, Bool.and_eq_true] at h; exact h.1
    have ih1 := walk_readable cfg (.dir name entries) (Join path name) st hd
    have ih2 := walkNames_readable cfg rest path
      (walk (walkFn cfg) (Join path name) (.dir name entries) st).1 hr
    have hgo : walkNames (walkFn cfg) path (.dir name entries :: rest) st =
        walkNames (walkFn cfg) path rest
          (walk (walkFn cfg) (Join path name) (.dir name entries) st).1 := by
      rcases ih1.2.2.2 with h0 | ⟨h0, _⟩ <;> simp [walkNames, h0]
    rw [hgo]
    simp only [acceptedIn, rejectionsIn, Entry.name]
    rw [ih2.1, ih2.2.1, ih2.2.2.1, ih1.1, ih1.2.1, ih1.2.2.1]
    refine ⟨by simp, ?_, ?_, ih2.2.2.2⟩
    · rw [List.length_append, Nat.add_comm, Function.iterate_add_apply]
    · rw [Nat.add_comm, Function.iterate_add_apply]
  | .unreadable _ _ :: _, _, _, h => by simp [readableAll, Entry.readable] at h
  | .broken _ _ :: _, _, _, h => by simp [readableAll, Entry.readable] at h
end

mutual
theorem mem_accepted [CaseTable] (cfg : Config) : ∀ (e : Entry) (path p : Str),
    p ∈ accepted cfg path e ↔
      ∃ dirs fname, Under path e dirs p fname ∧ (∀ d ∈ dirs, cfg.skipDirRE d = false) ∧
        cfg.extensionRE (ToLower (Ext p)) = true ∧ cfg.skipFileRE fname = false
  | .file name, path, p => by
    constructor
    · intro h
      by_cases hc : (cfg.extensionRE (ToLower (Ext path)) && !cfg.skipFileRE name) = true
      · simp only [accepted, hc, if_true, List.mem_singleton] at h
        subst h
        simp only [Bool.and_eq_true, Bool.not_eq_true'] at hc
        exact ⟨[], name, Under.file _ _, by simp, hc.1, hc.2⟩
      · simp [accepted, hc] at h
    · rintro ⟨dirs, fname, hu, -, h1, h2⟩
      cases hu
      simp [accepted, h1, h2]
  | .dir name entries, path, p => by
    constructor
    · intro h
      by_cases hc : cfg.skipDirRE name = true
      · simp [accepted, hc] at h
      · simp only [accepted, hc, if_false, Bool.false_eq_true] at h
        obtain ⟨e, he, dirs, fname, hu, hd, h1, h2⟩ := (mem_acceptedIn cfg entries path p).mp h
        refine ⟨name :: dirs, fname, Under.dir _ _ _ e _ _ _ he hu, ?_, h1, h2⟩
        intro d hdm
        rcases List.mem_cons.mp hdm with rfl | hdm
        · simpa using hc
        · exact hd d hdm
    · rintro ⟨dirs, fname, hu, hd, h1, h2⟩
      cases hu with
      | dir _ _ _ e dirs _ _ he hu =>
        have hc : cfg.skipDirRE name = false := hd name (List.mem_cons_self _ _)
        simp only [accepted, hc, if_false, Bool.false_eq_true]
        exact (mem_acceptedIn cfg entries path p).mpr
          ⟨e, he, dirs, fname, hu, fun d hdm => hd d (List.mem_cons_of_mem _ hdm), h1, h2⟩
  | .unreadable _ _, _, _ => by
    constructor
    · intro h; simp [accepted] at h
    · rintro ⟨_, _, hu, _⟩; cases hu
  | .broken _ _, _, _ => by
    constructor
    · intro h; simp [accepted] at h
    · rintro ⟨_, _, hu, _⟩; cases hu
theorem mem_acceptedIn [CaseTable] (cfg : Config) : ∀ (es : List Entry) (path p : Str),
    p ∈ acceptedIn cfg path es ↔
      ∃ e ∈ es, ∃ dirs fname, Under (Join path e.name) e dirs p fname ∧
        (∀ d ∈ dirs, cfg.skipDirRE d = false) ∧
        cfg.extensionRE (ToLower (Ext p)) = true ∧ cfg.skipFileRE fname = false
  | [], _, _ => by simp [acceptedIn]
  | e :: rest, path, p => by
    simp only [acceptedIn, List.mem_append, List.mem_cons, exists_eq_or_imp]
    rw [mem_accepted cfg e (Join path e.name) p, mem_acceptedIn cfg rest path p]
end

theorem Walk_state {σ : Type} (fn : σ → Str → Visit → σ × Option WalkErr) (root : Str)
    (node : Entry) (st : σ) : (Walk fn root node st).1 = (walk fn root node st).1 := by
  simp only [Walk]
  split <;> rfl

theorem produce_readable [CaseTable]
    (cfg : Config) : ∀ (input : List (Str × Entry)) (st : Producer),
    (∀ x ∈ input, x.2.readable = true) →
    (produce cfg input st).queue = st.queue ++ input.flatMap (fun x => accepted cfg x.1 x.2) ∧
    (produce cfg input st).files =
      incInt32^[(input.flatMap (fun x => accepted cfg x.1 x.2)).length] st.files ∧
    (produce cfg input st).skipped =
      incInt32^[(input.map (fun x => rejections cfg x.1 x.2)).sum] st.skipped := by
  intro input
  induction input with
  | nil => intro st _; simp [produce]
  | cons x rest ih =>
    intro st h
    obtain ⟨dir, node⟩ := x
    have hx : node.readable = true := h (dir, node) (List.mem_cons_self _ _)
    have hrest : ∀ y ∈ rest, y.2.readable = true := fun y hy => h y (List.mem_cons_of_mem _ hy)
    have hw := walk_readable cfg node dir st hx
    have ih2 := ih (Walk (walkFn cfg) dir node st).1 hrest
    simp only [produce, List.flatMap_cons, List.map_cons, List.sum_cons]
    rw [ih2.1, ih2.2.1, ih2.2.2, Walk_state, hw.1, hw.2.1, hw.2.2.1]
    refine ⟨by simp, ?_, ?_⟩
    · rw [List.length_append, Nat.add_comm, Function.iterate_add_apply]
    · rw [Nat.add_comm, Function.iterate_add_apply]

/-! ## The counter `files` -/

mutual
theorem walk_preserves {σ : Type} (fn : σ → Str → Visit → σ × Option WalkErr) (P : σ → Prop)
    (hfn : ∀ st path v, P st → P (fn st path v).1) :
    ∀ (e : Entry) (path : Str) (st : σ), P st → P (walk fn path e st).1
  | .file name, path, st, h => by simpa [walk] using hfn st path _ h
  | .dir name entries, path, st, h => by
    have h1 := hfn st path (.ok ⟨name, true⟩) h
    simp only [walk]
    split
    · exact h1
    · exact walkNames_preserves fn P hfn entries path _ h1
  | .unreadable _ err, path, st, h => by simpa [walk] using hfn st path _ h
  | .broken _ err, path, st, h => by simpa [walk] using hfn st path _ h
theorem walkNames_preserves {σ : Type} (fn : σ → Str → Visit → σ × Option WalkErr)
    (P : σ → Prop) (hfn : ∀ st path v, P st → P (fn st path v).1) :
    ∀ (es : List Entry) (path : Str) (st : σ), P st → P (walkNames fn path es st).1
  | [], _, _, h => by simpa [walkNames] using h
  | .broken name err :: rest, path, st, h => by
    have h1 := hfn st (Join path name) (.failed err) h
    simp only [walkNames]
    split
    · exact h1
    · exact walkNames_preserves fn P hfn rest path _ h1
  | .file name :: rest, path, st, h => by
    have h1 := walk_preserves fn P hfn (.file name) (Join path name) st h
    simp only [walkNames]
    split
    · exact h1
    · exact walkNames_preserves fn P hfn rest path _ h1
  | .dir name entries :: rest, path, st, h => by
    have h1 := walk_preserves fn P hfn (.dir name entries) (Join path name) st h
    simp only [walkNames]
    split
    · exact h1
    · exact walkNames_preserves fn P hfn rest path _ h1
  | .unreadable name err :: rest, path, st, h => by
    have h1 := walk_preserves fn P hfn (.unreadable name err) (Join path name) st h
    simp only [walkNames]
    split
    · exact h1
    · exact walkNames_preserves fn P hfn rest path _ h1
end

theorem walkFn_files [CaseTable] (cfg : Config) (st : Producer) (path : Str) (v : Visit)
    (h : st.files = incInt32^[st.queue.length] 0) :
    (walkFn cfg st path v).1.files = incInt32^[(walkFn cfg st path v).1.queue.length] 0 := by
  cases v with
  | failed err => simpa [walkFn] using h
  | ok info =>
    simp only [walkFn]
    split
    · split
      · simpa [Producer.skip] using h
      · exact h
    · split
      · simpa [Producer.skip] using h
      · split
        · simpa [Producer.skip] using h
        · simp only [List.length_append, List.length_singleton, Function.iterate_succ_apply', h]

theorem produce_files [CaseTable] (cfg : Config) : ∀ (input : List (Str × Entry)) (st : Producer),
    st.files = incInt32^[st.queue.length] 0 →
    (produce cfg input st).files = incInt32^[(produce cfg input st).queue.length] 0 := by
  intro input
  induction input with
  | nil => intro st h; exact h
  | cons x rest ih =>
    intro st h
    obtain ⟨dir, node⟩ := x
    simp only [produce]
    apply ih
    rw [Walk_state]
    exact walk_preserves (walkFn cfg) (fun st => st.files = incInt32^[st.queue.length] 0)
      (walkFn_files cfg) node dir st h

theorem produce_files_start [CaseTable] (cfg : Config) (input : List (Str × Entry)) :
    (produce cfg input Producer.start).files =
      wrapInt32 (produce cfg input Producer.start).queue.length := by
  rw [produce_files cfg input Producer.start rfl]
  exact incInt32_iterate_zero _

/-! ## What is sent to the workers -/

mutual
theorem walk_sound [CaseTable] (cfg : Config) : ∀ (e : Entry) (path : Str) (st : Producer),
    ∃ L, (walk (walkFn cfg) path e st).1.queue = st.queue ++ L ∧
      ∀ p ∈ L, p ∈ accepted cfg path e
  | .file name, path, st => by
    by_cases h1 : cfg.extensionRE (ToLower (Ext path)) = true
    · by_cases h2 : cfg.skipFileRE name = true
      · exact ⟨[], by simp [walk, walkFn, h1, h2, Producer.skip], by simp⟩
      · exact ⟨[path], by simp [walk, walkFn, h1, h2], by simp [accepted, h1, h2]⟩
    · exact ⟨[], by simp [walk, walkFn, h1, Producer.skip], by simp⟩
  | .dir name entries, path, st => by
    by_cases h1 : cfg.skipDirRE name = true
    · exact ⟨[], by simp [walk, walkFn, h1, Producer.skip], by simp⟩
    · obtain ⟨L, hq, hL⟩ := walkNames_sound cfg entries path st
      refine ⟨L, ?_, ?_⟩
      · simpa [walk, walkFn, h1] using hq
      · simpa [accepted, h1] using hL
  | .unreadable _ err, path, st => ⟨[], by simp [walk, walkFn], by simp⟩
  | .broken _ err, path, st => ⟨[], by simp [walk, walkFn], by simp⟩
theorem walkNames_sound [CaseTable]
    (cfg : Config) : ∀ (es : List Entry) (path : Str) (st : Producer),
    ∃ L, (walkNames (walkFn cfg) path es st).1.queue = st.queue ++ L ∧
      ∀ p ∈ L, p ∈ acceptedIn cfg path es
  | [], _, _ => ⟨[], by simp [walkNames], by simp⟩
  | .broken name err :: rest, path, st => ⟨[], by simp [walkNames, walkFn], by simp⟩
  | .file name :: rest, path, st => by
    obtain ⟨L1, hq1, hL1⟩ := walk_sound cfg (.file name) (Join path name) st
    obtain ⟨L2, hq2, hL2⟩ := walkNames_sound cfg rest path
      (walk (walkFn cfg) (Join path name) (.file name) st).1
    simp only [walkNames]
    split
    · exact ⟨L1, hq1, fun p hp => by
        simp only [acceptedIn, List.mem_append]; exact Or.inl (hL1 p hp)⟩
    · refine ⟨L1 ++ L2, by rw [hq2, hq1, List.append_assoc], ?_⟩
      intro p hp
      simp only [acceptedIn, List.mem_append]
      rcases List.mem_append.mp hp with h | h
      · exact Or.inl (hL1 p h)
      · exact Or.inr (hL2 p h)
  | .dir name entries :: rest, path, st => by
    obtain ⟨L1, hq1, hL1⟩ := walk_sound cfg (.dir name entries) (Join path name) st
    obtain ⟨L2, hq2, hL2⟩ := walkNames_sound cfg rest path
      (walk (walkFn cfg) (Join path name) (.dir name entries) st).1
    simp only [walkNames]
    split
    · exact ⟨L1, hq1, fun p hp => by
        simp only [acceptedIn, List.mem_append]; exact Or.inl (hL1 p hp)⟩
    · refine ⟨L1 ++ L2, by rw [hq2, hq1, List.append_assoc], ?_⟩
      intro p hp
      simp only [acceptedIn, List.mem_append]
      rcases List.mem_append.mp hp with h | h
      · exact Or.inl (hL1 p h)
      · exact Or.inr (hL2 p h)
  | .unreadable name err :: rest, path, st =>
    ⟨[], by simp [walkNames, walk, walkFn], by simp⟩
end

theorem produce_sound [CaseTable] (cfg : Config) : ∀ (input : List (Str × Entry)) (st : Producer),
    ∃ L, (produce cfg input st).queue = st.queue ++ L ∧
      ∀ p ∈ L, ∃ x ∈ input, p ∈ accepted cfg x.1 x.2 := by
  intro input
  induction input with
  | nil =>
    intro st
    exact ⟨[], by simp [produce], fun p hp => absurd hp (List.not_mem_nil p)⟩
  | cons x rest ih =>
    intro st
    obtain ⟨dir, node⟩ := x
    obtain ⟨L1, hq1, hL1⟩ := walk_sound cfg node dir st
    obtain ⟨L2, hq2, hL2⟩ := ih (Walk (walkFn cfg) dir node st).1
    refine ⟨L1 ++ L2, ?_, ?_⟩
    · simp only [produce]
      rw [hq2, Walk_state, hq1, List.append_assoc]
    · intro p hp
      rcases List.mem_append.mp hp with h | h
      · exact ⟨(dir, node), List.mem_cons_self _ _, hL1 p h⟩
      · obtain ⟨x, hx, hacc⟩ := hL2 p h
        exact ⟨x, List.mem_cons_of_mem _ hx, hacc⟩

/-- C4, as stated, fails: the input root `a` holds a directory `locked` that cannot be listed
and, after it, the file `x.jpg`; no directory above `a/x.jpg` matches skip-dir, its extension
matches the extension pattern and its name does not match skip-file, yet the traversal ends
at `a/locked` and nothing is sent to the workers. -/
theorem C4_counterexample :
    (produce demoConfig [("a".toList, Entry.dir "a".toList
        [.unreadable "locked".toList .EACCES, .file "x.jpg".toList])]
      Producer.start).queue = [] ∧
    Under "a".toList (Entry.dir "a".toList
        [.unreadable "locked".toList .EACCES, .file "x.jpg".toList])
      ["a".toList] "a/x.jpg".toList "x.jpg".toList ∧
    demoConfig.skipDirRE "a".toList = false ∧
    demoConfig.extensionRE (ToLower (Ext "a/x.jpg".toList)) = true ∧
    demoConfig.skipFileRE "x.jpg".toList = false := by
  refine ⟨by decide, ?_, by decide, by decide, by decide⟩
  have hj : Join "a".toList (Entry.file "x.jpg".toList).name = "a/x.jpg".toList := by decide
  have hu := Under.file (Join "a".toList (Entry.file "x.jpg".toList).name) "x.jpg".toList
  rw [hj] at hu
  exact Under.dir _ _ _ (.file "x.jpg".toList) [] _ _
    (List.mem_cons_of_mem _ (List.mem_cons_self _ _)) (hj ▸ hu)

/-- C4, amended: a path is sent on the queue only if it is the path of a file such that no
directory from the input root (included) down to the file has a base name matching skip-dir,
the file's lower-cased extension matches the extension pattern and its base name does not
match skip-file; over input trees of which every entry can be read (no `Lstat` and no
directory listing fails), every such file is sent; the counter `files` counts the paths sent;
and the traversal of a directory whose base name matches skip-dir is the single call that
skips it, whatever the directory holds. -/
theorem C4_queue_iff_accepted [CaseTable] (cfg : Config) (input : List (Str × Entry)) :
    (∀ p ∈ (produce cfg input Producer.start).queue,
      ∃ x ∈ input, ∃ dirs fname, Under x.1 x.2 dirs p fname ∧
        (∀ d ∈ dirs, cfg.skipDirRE d = false) ∧
        cfg.extensionRE (ToLower (Ext p)) = true ∧ cfg.skipFileRE fname = false) ∧
    ((∀ x ∈ input, x.2.readable = true) →
      ∀ p, (∃ x ∈ input, ∃ dirs fname, Under x.1 x.2 dirs p fname ∧
          (∀ d ∈ dirs, cfg.skipDirRE d = false) ∧
          cfg.extensionRE (ToLower (Ext p)) = true ∧ cfg.skipFileRE fname = false) →
        p ∈ (produce cfg input Producer.start).queue) ∧
    (produce cfg input Producer.start).files =
      wrapInt32 (produce cfg input Producer.start).queue.length ∧
    (∀ (st : Producer) (path name : Str) (entries : List Entry), cfg.skipDirRE name = true →
      walk (walkFn cfg) path (.dir name entries) st = (st.skip path, some .SkipDir)) := by
  refine ⟨?_, ?_, produce_files_start cfg input, ?_⟩
  · intro p hp
    obtain ⟨L, hq, hL⟩ := produce_sound cfg input Producer.start
    rw [hq] at hp
    simp only [Producer.start, List.nil_append] at hp
    obtain ⟨x, hx, hacc⟩ := hL p hp
    exact ⟨x, hx, (mem_accepted cfg x.2 x.1 p).mp hacc⟩
  · intro hread p
    have hp := produce_readable cfg input Producer.start hread
    rw [hp.1]
    simp only [Producer.start, List.nil_append, List.mem_flatMap]
    rintro ⟨x, hx, hu⟩
    exact ⟨x, hx, (mem_accepted cfg x.2 x.1 p).mpr hu⟩
  · intro st path name entries hskip
    simp [walk, walkFn, hskip]

theorem C4_queue_iff_accepted_witness :
    (∀ x ∈ [("in".toList, Entry.dir "in".toList
        [.dir "Thumbnails".toList [.file "c.png".toList], .file "a.jpg".toList,
         .file "notes.txt".toList])], x.2.readable = true) ∧
    ((∃ x ∈ [("in".toList, Entry.dir "in".toList
        [.dir "Thumbnails".toList [.file "c.png".toList], .file "a.jpg".toList,
         .file "notes.txt".toList])], ∃ dirs fname, Under x.1 x.2 dirs "in/a.jpg".toList fname ∧
        (∀ d ∈ dirs, demoConfig.skipDirRE d = false) ∧
        demoConfig.extensionRE (ToLower (Ext "in/a.jpg".toList)) = true ∧
        demoConfig.skipFileRE fname = false) →
      "in/a.jpg".toList ∈ (produce demoConfig [("in".toList, Entry.dir "in".toList
        [.dir "Thumbnails".toList [.file "c.png".toList], .file "a.jpg".toList,
         .file "notes.txt".toList])] Producer.start).queue) ∧
    (produce demoConfig [("in".toList, Entry.dir "in".toList
        [.dir "Thumbnails".toList [.file "c.png".toList], .file "a.jpg".toList,
         .file "notes.txt".toList])] Producer.start).queue = ["in/a.jpg".toList] :=
  ⟨by decide, (C4_queue_iff_accepted demoConfig _).2.1 (by decide) "in/a.jpg".toList,
    by decide⟩

/-- C5, as stated, fails: under an input root `in`, the directory `Thumbnails` (which matches
skip-dir) holds the two files `a.jpg` and `b.jpg`; two files have a parent directory matching
skip-dir, yet the skipped total is 1, the directory itself. -/
theorem C5_counterexample :
    (produce demoConfig [("in".toList, Entry.dir "in".toList
        [.dir "Thumbnails".toList [.file "a.jpg".toList, .file "b.jpg".toList]])]
      Producer.start).skipped = 1 ∧
    rejectedFiles demoConfig false "in".toList (Entry.dir "in".toList
        [.dir "Thumbnails".toList [.file "a.jpg".toList, .file "b.jpg".toList]]) = 2 := by
  decide

/-- C5, amended: over readable input trees, the skipped total at the end of the traversal is
the number of rejections, counted as an `int32`: one for each directory met whose base name
matches skip-dir (nothing below it is met or counted), one for each file met whose extension
fails the extension pattern or whose base name matches skip-file.  A path is sent to the
workers only if it is the path of a file below no directory matching skip-dir that passes
both file tests, so no store path is made for a rejected file. -/
theorem C5_skipped_total [CaseTable] (cfg : Config) (input : List (Str × Entry))
    (hread : ∀ x ∈ input, x.2.readable = true) :
    (produce cfg input Producer.start).skipped =
      wrapInt32 (input.map (fun x => rejections cfg x.1 x.2)).sum ∧
    (∀ p ∈ (produce cfg input Producer.start).queue,
      ∃ x ∈ input, ∃ dirs fname, Under x.1 x.2 dirs p fname ∧
        (∀ d ∈ dirs, cfg.skipDirRE d = false) ∧
        cfg.extensionRE (ToLower (Ext p)) = true ∧ cfg.skipFileRE fname = false) := by
  have hp := produce_readable cfg input Producer.start hread
  refine ⟨?_, ?_⟩
  · rw [hp.2.2]
    exact incInt32_iterate_zero _
  · intro p hmem
    rw [hp.1] at hmem
    simp only [Producer.start, List.nil_append, List.mem_flatMap] at hmem
    obtain ⟨x, hx, hmem⟩ := hmem
    exact ⟨x, hx, (mem_accepted cfg x.2 x.1 p).mp hmem⟩

theorem C5_skipped_total_witness :
    (∀ x ∈ [("in".toList, Entry.dir "in".toList
        [.dir "Thumbnails".toList [.file "a.jpg".toList, .file "b.jpg".toList],
         .file "notes.txt".toList, .file "c.png".toList])], x.2.readable = true) ∧
    (produce demoConfig [("in".toList, Entry.dir "in".toList
        [.dir "Thumbnails".toList [.file "a.jpg".toList, .file "b.jpg".toList],
         .file "notes.txt".toList, .file "c.png".toList])] Producer.start).skipped =
      wrapInt32 ([("in".toList, Entry.dir "in".toList
        [.dir "Thumbnails".toList [.file "a.jpg".toList, .file "b.jpg".toList],
         .file "notes.txt".toList, .file "c.png".toList])].map
          (fun x => rejections demoConfig x.1 x.2)).sum :=
  ⟨by decide, (C5_skipped_total demoConfig _ (by decide)).1⟩

/-- C6, on the code: the first input root `a` holds a directory `locked` that cannot be
listed, so the callback returns the error and the traversal of `a` stops with it, before
`a/x.jpg`; `main` does not look at what `filepath.Walk` returns: the second root `b` is
traversed, `b/y.jpg` is sent to the workers and the summary line is printed. -/
theorem C6_walk_error_not_fatal :
    (Walk (walkFn demoConfig) "a".toList
      (Entry.dir "a".toList [.unreadable "locked".toList .EACCES, .file "x.jpg".toList])
      Producer.start).2 = some (.os .EACCES) ∧
    (produce demoConfig
      [("a".toList, Entry.dir "a".toList
          [.unreadable "locked".toList .EACCES, .file "x.jpg".toList]),
       ("b".toList, Entry.dir "b".toList [.file "y.jpg".toList])]
      Producer.start).queue = ["b/y.jpg".toList] ∧
    ((main demoConfig demoOS
      [("a".toList, Entry.dir "a".toList
          [.unreadable "locked".toList .EACCES, .file "x.jpg".toList]),
       ("b".toList, Entry.dir "b".toList [.file "y.jpg".toList])]
      []).toOption.map Prod.fst) = some ⟨0, 1, 0⟩ := by
  decide

/-! ## Placement -/

theorem place_eq {σ : Type} (os : OS σ) (st : WorkerState σ) (path dir file : Str) :
    place os st path dir file =
      match mkdirFatal (os.Mkdir st.fs dir).2 with
      | some err => .error err
      | none =>
        match (os.Link (os.Mkdir st.fs dir).1 path file).2 with
        | none => .ok { st with fs := (os.Link (os.Mkdir st.fs dir).1 path file).1 }
        | some err =>
          if IsExist err then
            .ok { st with fs := (os.Link (os.Mkdir st.fs dir).1 path file).1,
                          duplicates := AddInt32 st.duplicates 1 }
          else .error err := rfl

/-- C7: a placement ends the process exactly when directory creation fails with an error
other than already-exists or link creation fails with an error other than already-exists;
otherwise the duplicate counter is left as it was when the link was created and is
incremented by one (an `int32` increment) when link creation failed with already-exists, and
the worker goes on with the next path of the queue. -/
theorem C7_placement_outcome [CaseTable] {σ : Type} (os : OS σ) (st : WorkerState σ)
    (path dir file : Str) :
    ((∃ err, place os st path dir file = .error err) ↔
      ((∃ err, (os.Mkdir st.fs dir).2 = some err ∧ IsExist err = false) ∨
       (∃ err, (os.Link (os.Mkdir st.fs dir).1 path file).2 = some err ∧
          IsExist err = false))) ∧
    (∀ st1, place os st path dir file = .ok st1 →
      ((os.Link (os.Mkdir st.fs dir).1 path file).2 = none →
        st1.duplicates = st.duplicates) ∧
      (∀ err, (os.Link (os.Mkdir st.fs dir).1 path file).2 = some err →
        IsExist err = true ∧ st1.duplicates = wrapInt32 (st.duplicates + 1) ∧
        (-2147483648 ≤ st.duplicates → st.duplicates < 2147483647 →
          st1.duplicates = st.duplicates + 1))) ∧
    (∀ (output : Str) (rest : List Str) (st1 : WorkerState σ),
      workerBody os output st path = .ok st1 →
      worker os output st (path :: rest) = worker os output st1 rest) ∧
    (∀ (output : Str) (rest : List Str) (err : Errno),
      workerBody os output st path = .error err →
      worker os output st (path :: rest) = .error err) := by
  refine ⟨?_, ?_, ?_, ?_⟩
  · rw [place_eq]
    rcases hm : (os.Mkdir st.fs dir).2 with _ | em
    · rcases hl : (os.Link (os.Mkdir st.fs dir).1 path file).2 with _ | el
      · simp [mkdirFatal]
      · cases he : IsExist el <;> simp [mkdirFatal, he]
    · cases hem : IsExist em
      · simp [mkdirFatal, hem]
      · rcases hl : (os.Link (os.Mkdir st.fs dir).1 path file).2 with _ | el
        · simp [mkdirFatal, hem]
        · cases he : IsExist el <;> simp [mkdirFatal, hem, he]
  · intro st1 hok
    rw [place_eq] at hok
    rcases hm : mkdirFatal (os.Mkdir st.fs dir).2 with _ | em
    · rw [hm] at hok
      rcases hl : (os.Link (os.Mkdir st.fs dir).1 path file).2 with _ | el
      · rw [hl] at hok
        simp only [Except.ok.injEq] at hok
        subst hok
        simp
      · rw [hl] at hok
        cases he : IsExist el
        · simp [he] at hok
        · simp only [he, if_true, Except.ok.injEq] at hok
          subst hok
          refine ⟨by simp, ?_⟩
          intro err herr
          cases herr
          refine ⟨he, rfl, ?_⟩
          intro h1 h2
          simp only [AddInt32, wrapInt32]
          omega
    · rw [hm] at hok
      simp at hok
  · intro output rest st1 h
    simp [worker, h]
  · intro output rest err h
    simp [worker, h]

theorem C7_placement_outcome_witness :
    (demoOS.Link (demoOS.Mkdir ["out/ab/cd".toList] "out/ab".toList).1 "in/a.jpg".toList
        "out/ab/cd".toList).2 = some Errno.EEXIST ∧
    place demoOS ⟨["out/ab/cd".toList], 5, []⟩ "in/a.jpg".toList "out/ab".toList
        "out/ab/cd".toList = .ok ⟨["out/ab".toList, "out/ab/cd".toList], 6, []⟩ ∧
    (6 : Int) = wrapInt32 (5 + 1) :=
  ⟨rfl, rfl,
    ((C7_placement_outcome demoOS ⟨["out/ab/cd".toList], 5, []⟩ "in/a.jpg".toList
      "out/ab".toList "out/ab/cd".toList).2.1 ⟨["out/ab".toList, "out/ab/cd".toList], 6, []⟩
        rfl).2 Errno.EEXIST rfl |>.2.1⟩

/-! ## The store as a set of paths -/

theorem slash_not_mem_SprintfX (bs : List Byte) : '/' ∉ SprintfX bs := by
  intro h
  have := SprintfX_lower bs '/' h
  revert this
  decide

theorem dirname_ne_filename [CaseTable] (o : Str) (h h' : List Byte) (p : Str)
    (hlen : h.length = 32) (hlen' : h'.length = 32) :
    dirname o h ≠ filename o h' p := by
  intro heq
  rw [dirname_eq o h hlen, filename_eq o h' p hlen'] at heq
  have h1 := List.append_cancel_left heq
  have hmem : '/' ∈ SprintfX (List.take 1 h) := by
    rw [h1]
    simp
  exact slash_not_mem_SprintfX _ hmem

theorem hashFile_setOS (sum256 : Digest) (contents : Str → Option (List Byte))
    (fs : List Str) (p : Str) (c : List Byte) (hc : contents p = some c) :
    hashFile (setOS sum256 contents) fs p = .ok (sum256 c) := by
  simp [hashFile, setOS, hc]

theorem hashFile_setOS_none (sum256 : Digest)
    (contents : Str → Option (List Byte)) (fs : List Str) (p : Str) (hc : contents p = none) :
    hashFile (setOS sum256 contents) fs p = .error .ENOENT := by
  simp [hashFile, setOS, hc]

theorem mem_withDir (fs : List Str) (d x : Str) : x ∈ withDir fs d ↔ x = d ∨ x ∈ fs := by
  unfold withDir
  split
  · constructor
    · exact Or.inr
    · rintro (rfl | h)
      · assumption
      · exact h
  · simp

/-- C2, as stated, fails: three files with the same bytes and the same extension are
processed in the order `in/x.jpg`, `in/a.jpg`, `in/b.jpg` on an empty store; both `in/a.jpg`
and `in/b.jpg` are counted as duplicates (the counter goes from 0 to 1 to 2) and neither is
placed as a new link (the store stays as `in/x.jpg` left it). -/
theorem C2_counterexample :
    demoContents "in/a.jpg".toList = demoContents "in/b.jpg".toList ∧
    ToLower (Ext "in/a.jpg".toList) = ToLower (Ext "in/b.jpg".toList) ∧
    (worker demoOS "out".toList ⟨[], 0, []⟩ ["in/x.jpg".toList]).toOption.map
      (fun st => st.duplicates) = some 0 ∧
    (worker demoOS "out".toList ⟨[], 0, []⟩
      ["in/x.jpg".toList, "in/a.jpg".toList]).toOption.map (fun st => st.duplicates) = some 1 ∧
    (worker demoOS "out".toList ⟨[], 0, []⟩
      ["in/x.jpg".toList, "in/a.jpg".toList, "in/b.jpg".toList]).toOption.map
      (fun st => st.duplicates) = some 2 ∧
    (worker demoOS "out".toList ⟨[], 0, []⟩
      ["in/x.jpg".toList, "in/a.jpg".toList, "in/b.jpg".toList]).toOption.map
      (fun st => st.fs) =
    (worker demoOS "out".toList ⟨[], 0, []⟩ ["in/x.jpg".toList]).toOption.map
      (fun st => st.fs) := by
  decide

/-! ## The worker pool: every step is one of the moves -/

theorem step_move [CaseTable] (sum256 : Digest) (contents : Str → Option (List Byte))
    (o : Str) (m : Machine (List Str)) (i : Nat) :
    Move sum256 contents o i m (Machine.step (setOS sum256 contents) o m i)
      (Machine.linkEvent (setOS sum256 contents) m i) := by
  by_cases hcr : m.crashed.isSome = true
  · have : Machine.step (setOS sum256 contents) o m i = m := by simp [Machine.step, hcr]
    have he : Machine.linkEvent (setOS sum256 contents) m i = none := by
      simp [Machine.linkEvent, hcr]
    rw [this, he]; exact Move.stay m (Or.inl hcr)
  · rcases hget : m.workers[i]? with _ | pc
    · have : Machine.step (setOS sum256 contents) o m i = m := by
        simp [Machine.step, hget]
      have he : Machine.linkEvent (setOS sum256 contents) m i = none := by
        simp [Machine.linkEvent, hget]
      rw [this, he]; exact Move.stay m (Or.inr (Or.inl hget))
    · cases pc with
      | recv =>
        have he : Machine.linkEvent (setOS sum256 contents) m i = none := by
          simp [Machine.linkEvent, hget]
        rw [he]
        rcases hp : m.pending with _ | ⟨p, rest⟩
        · have h := @Move.close _ sum256 contents o i m hget hp
          have : Machine.step (setOS sum256 contents) o m i
              = { m with workers := m.workers.set i .done } := by
            simp [Machine.step, hcr, hget, hp]
          rw [this]; exact h
        · have h := @Move.handoff _ sum256 contents o i m p rest
            hget hp
          have : Machine.step (setOS sum256 contents) o m i
              = { m with pending := rest, workers := m.workers.set i (.hash p) } := by
            simp [Machine.step, hcr, hget, hp]
          rw [this]; exact h
      | hash p =>
        have he : Machine.linkEvent (setOS sum256 contents) m i = none := by
          simp [Machine.linkEvent, hget]
        rw [he]
        cases hc : contents p with
        | none =>
          have : Machine.step (setOS sum256 contents) o m i
              = { m with crashed := some Errno.ENOENT } := by
            simp [Machine.step, hcr, hget, hashFile_setOS_none _ _ _ _ hc]
          rw [this]; exact Move.crash m p hget hc
        | some c =>
          have : Machine.step (setOS sum256 contents) o m i
              = { m with workers := m.workers.set i
                           (.mkdir p (dirname o (sum256 c)) (filename o (sum256 c) p)),
                         log := m.log ++ [filename o (sum256 c) p ++ " -> ".toList ++ p] } := by
            simp [Machine.step, hcr, hget, hashFile_setOS _ _ _ _ _ hc]
          rw [this]; exact Move.hashed m p c _ hget hc
      | mkdir p d f =>
        have he : Machine.linkEvent (setOS sum256 contents) m i = none := by
          simp [Machine.linkEvent, hget]
        rw [he]
        have : Machine.step (setOS sum256 contents) o m i
            = { m with fs := withDir m.fs d, workers := m.workers.set i (.link p f) } := by
          by_cases hd : d ∈ m.fs <;>
            simp [Machine.step, hcr, hget, setOS, withDir, hd, mkdirFatal, IsExist]
        rw [this]; exact Move.mkdir m p d f hget
      | link p f =>
        by_cases hf : f ∈ m.fs
        · have : Machine.step (setOS sum256 contents) o m i
              = { m with workers := m.workers.set i .add } := by
            simp [Machine.step, hcr, hget, setOS, hf, IsExist]
          have he : Machine.linkEvent (setOS sum256 contents) m i = some ⟨p, f, true⟩ := by
            simp [Machine.linkEvent, hcr, hget, setOS, hf, IsExist]
          rw [this, he]; exact Move.linkDup m p f hget hf
        · have : Machine.step (setOS sum256 contents) o m i
              = { m with fs := f :: m.fs, workers := m.workers.set i .recv } := by
            simp [Machine.step, hcr, hget, setOS, hf]
          have he : Machine.linkEvent (setOS sum256 contents) m i = some ⟨p, f, false⟩ := by
            simp [Machine.linkEvent, hcr, hget, setOS, hf]
          rw [this, he]; exact Move.linkNew m p f hget hf
      | add =>
        have he : Machine.linkEvent (setOS sum256 contents) m i = none := by
          simp [Machine.linkEvent, hget]
        rw [he]
        have : Machine.step (setOS sum256 contents) o m i
            = { m with duplicates := AddInt32 m.duplicates 1,
                       workers := m.workers.set i .recv } := by
          simp [Machine.step, hcr, hget]
        rw [this]; exact Move.add m hget
      | done =>
        have he : Machine.linkEvent (setOS sum256 contents) m i = none := by
          simp [Machine.linkEvent, hget]
        have : Machine.step (setOS sum256 contents) o m i = m := by
          simp [Machine.step, hcr, hget]
        rw [this, he]; exact Move.stay m (Or.inr (Or.inr hget))

/-! ## Updating one worker -/

theorem sum_map_set {α M : Type} [AddCommMonoid M] (f : α → M) :
    ∀ (ws : List α) (i : Nat) (old new : α), ws[i]? = some old →
      ((ws.set i new).map f).sum + f old = (ws.map f).sum + f new := by
  intro ws
  induction ws with
  | nil => intro i old new h; simp at h
  | cons w ws ih =>
    intro i old new h
    cases i with
    | zero =>
      simp only [List.getElem?_cons_zero, Option.some.injEq] at h
      subst h
      simp only [List.set_cons_zero, List.map_cons, List.sum_cons]
      abel
    | succ i =>
      simp only [List.getElem?_cons_succ] at h
      simp only [List.set_cons_succ, List.map_cons, List.sum_cons, add_assoc, ih i old new h]

theorem mem_set_new {α : Type} : ∀ (ws : List α) (i : Nat) (old new : α),
    ws[i]? = some old → new ∈ ws.set i new := by
  intro ws
  induction ws with
  | nil => intro i old new h; simp at h
  | cons w ws ih =>
    intro i old new h
    cases i with
    | zero => simp
    | succ i =>
      simp only [List.getElem?_cons_succ] at h
      simp only [List.set_cons_succ, List.mem_cons]
      exact Or.inr (ih i old new h)

theorem mem_set_other {α : Type} : ∀ (ws : List α) (i : Nat) (old new x : α),
    ws[i]? = some old → x ∈ ws → x ≠ old → x ∈ ws.set i new := by
  intro ws
  induction ws with
  | nil => intro i old new x h; simp at h
  | cons w ws ih =>
    intro i old new x h hx hne
    cases i with
    | zero =>
      simp only [List.getElem?_cons_zero, Option.some.injEq] at h
      subst h
      simp only [List.set_cons_zero, List.mem_cons]
      rcases List.mem_cons.mp hx with h1 | h1
      · exact absurd h1 hne
      · exact Or.inr h1
    | succ i =>
      simp only [List.getElem?_cons_succ] at h
      simp only [List.set_cons_succ, List.mem_cons]
      rcases List.mem_cons.mp hx with h1 | h1
      · exact Or.inl h1
      · exact Or.inr (ih i old new x h h1 hne)

theorem mem_of_getElem {α : Type} : ∀ (ws : List α) (i : Nat) (old : α),
    ws[i]? = some old → old ∈ ws := by
  intro ws
  induction ws with
  | nil => intro i old h; simp at h
  | cons w ws ih =>
    intro i old h
    cases i with
    | zero =>
      simp only [List.getElem?_cons_zero, Option.some.injEq] at h
      subst h
      simp
    | succ i =>
      simp only [List.getElem?_cons_succ] at h
      exact List.mem_cons_of_mem _ (ih i old h)

/-! ## Links still to come -/

theorem toCome_zero (fs : List Str) : toCome fs 0 = 0 := by
  simp [toCome]

theorem toCome_add_of_mem (fs : List Str) (R : Multiset Str) (f : Str) (hf : f ∈ fs) :
    toCome fs (R + {f}) = toCome fs R + 1 := by
  have h1 : (R + {f}).toFinset.filter (fun x => x ∉ fs) = R.toFinset.filter (fun x => x ∉ fs) := by
    ext x
    simp only [Finset.mem_filter, Multiset.mem_toFinset, Multiset.mem_add,
      Multiset.mem_singleton]
    constructor
    · rintro ⟨h | h, hx⟩
      · exact ⟨h, hx⟩
      · exact absurd (h ▸ hf) hx
    · rintro ⟨h, hx⟩
      exact ⟨Or.inl h, hx⟩
  simp only [toCome, h1, Multiset.card_add, Multiset.card_singleton]
  push_cast
  ring

theorem toCome_add_of_not_mem (fs : List Str) (R : Multiset Str) (f : Str) (hf : f ∉ fs) :
    toCome fs (R + {f}) = toCome (f :: fs) R := by
  have h1 : (R + {f}).toFinset.filter (fun x => x ∉ fs) =
      insert f (R.toFinset.filter (fun x => x ∉ f :: fs)) := by
    ext x
    simp only [Finset.mem_filter, Multiset.mem_toFinset, Multiset.mem_add,
      Multiset.mem_singleton, Finset.mem_insert, List.mem_cons, not_or]
    constructor
    · rintro ⟨h | h, hx⟩
      · by_cases hxf : x = f
        · exact Or.inl hxf
        · exact Or.inr ⟨h, hxf, hx⟩
      · exact Or.inl h
    · rintro (h | ⟨h, _, hx⟩)
      · exact ⟨Or.inr h, h ▸ hf⟩
      · exact ⟨Or.inl h, hx⟩
  have h2 : f ∉ R.toFinset.filter (fun x => x ∉ f :: fs) := by
    simp
  simp only [toCome, h1, Finset.card_insert_of_not_mem h2, Multiset.card_add,
    Multiset.card_singleton]
  push_cast
  ring

theorem toCome_withDir (fs : List Str) (R : Multiset Str) (d : Str) (hd : d ∉ R) :
    toCome (withDir fs d) R = toCome fs R := by
  have h1 : R.toFinset.filter (fun x => x ∉ withDir fs d) =
      R.toFinset.filter (fun x => x ∉ fs) := by
    apply Finset.filter_congr
    intro x hx
    rw [mem_withDir]
    have hxd : x ≠ d := fun h => hd (h ▸ Multiset.mem_toFinset.mp hx)
    simp [hxd]
  simp only [toCome, h1]

/-! ## The invariant of the worker pool -/

section Pool

variable (sum256 : Digest) (contents : Str → Option (List Byte)) (o : Str)

theorem shardDir_ne_storePath [CaseTable] (p q : Str) :
    shardDir sum256 contents o p ≠ storePath sum256 contents o q :=
  dirname_ne_filename _ _ _ _ (sum256.size _) (sum256.size _)

theorem mem_links_sum [CaseTable] (ws : List PC) (x : Str)
    (h : x ∈ (ws.map (PC.links sum256 contents o)).sum) :
    ∃ pc ∈ ws, x ∈ PC.links sum256 contents o pc := by
  induction ws with
  | nil => simp at h
  | cons w ws ih =>
    simp only [List.map_cons, List.sum_cons, Multiset.mem_add] at h
    rcases h with h | h
    · exact ⟨w, List.mem_cons_self _ _, h⟩
    · obtain ⟨pc, hpc, hx⟩ := ih h
      exact ⟨pc, List.mem_cons_of_mem _ hpc, hx⟩

theorem links_storePath [CaseTable]
    (Q : List Str) (pc : PC) (hok : PC.ok sum256 contents o Q pc) (x : Str)
    (hx : x ∈ PC.links sum256 contents o pc) : ∃ q, x = storePath sum256 contents o q := by
  cases pc with
  | recv => simp [PC.links] at hx
  | hash p => exact ⟨p, by simpa [PC.links] using hx⟩
  | mkdir p d f =>
    simp only [PC.links, Multiset.mem_singleton] at hx
    exact ⟨p, hx.trans hok.2.2⟩
  | link p f =>
    simp only [PC.links, Multiset.mem_singleton] at hx
    exact ⟨p, hx.trans hok.2⟩
  | add => simp [PC.links] at hx
  | done => simp [PC.links] at hx

theorem toLink_storePath [CaseTable] (Q : List Str) (pending : List Str) (ws : List PC)
    (hok : ∀ pc ∈ ws, PC.ok sum256 contents o Q pc) (x : Str)
    (hx : x ∈ (pending.map (storePath sum256 contents o) : Multiset Str) +
      (ws.map (PC.links sum256 contents o)).sum) :
    ∃ q, x = storePath sum256 contents o q := by
  rcases Multiset.mem_add.mp hx with h | h
  · obtain ⟨q, _, hq⟩ := List.mem_map.mp (Multiset.mem_coe.mp h)
    exact ⟨q, hq.symm⟩
  · obtain ⟨pc, hpc, hx⟩ := mem_links_sum sum256 contents o ws x h
    exact links_storePath sum256 contents o Q pc (hok pc hpc) x hx

theorem shardDir_not_mem_toLink [CaseTable] (Q : List Str) (pending : List Str) (ws : List PC)
    (hok : ∀ pc ∈ ws, PC.ok sum256 contents o Q pc) (p : Str) :
    shardDir sum256 contents o p ∉ (pending.map (storePath sum256 contents o) : Multiset Str) +
      (ws.map (PC.links sum256 contents o)).sum := by
  intro h
  obtain ⟨q, hq⟩ := toLink_storePath sum256 contents o Q pending ws hok _ h
  exact shardDir_ne_storePath sum256 contents o p q hq

theorem ok_set [CaseTable] (Q : List Str) (ws : List PC) (i : Nat) (new : PC)
    (hok : ∀ pc ∈ ws, PC.ok sum256 contents o Q pc) (hnew : PC.ok sum256 contents o Q new) :
    ∀ pc ∈ ws.set i new, PC.ok sum256 contents o Q pc := by
  intro pc hpc
  rcases List.mem_or_eq_of_mem_set hpc with h | h
  · exact hok pc h
  · exact h ▸ hnew

theorem cover_set (proj : PC → Option Str) (tgt : Str → Str) (ws : List PC) (i : Nat)
    (old new : PC) (pend pend1 fs fs1 : List Str) (hget : ws[i]? = some old)
    (ha : ∀ x ∈ pend, x ∈ pend1 ∨ proj new = some x ∨ tgt x ∈ fs1)
    (hb : ∀ x, proj old = some x → proj new = some x ∨ tgt x ∈ fs1)
    (hc : ∀ x ∈ fs, x ∈ fs1) (q : Str)
    (h : q ∈ pend ∨ (∃ pc ∈ ws, proj pc = some q) ∨ tgt q ∈ fs) :
    q ∈ pend1 ∨ (∃ pc ∈ ws.set i new, proj pc = some q) ∨ tgt q ∈ fs1 := by
  have hnew : new ∈ ws.set i new := mem_set_new ws i old new hget
  rcases h with h | ⟨pc, hpc, hq⟩ | h
  · rcases ha q h with h1 | h1 | h1
    · exact Or.inl h1
    · exact Or.inr (Or.inl ⟨new, hnew, h1⟩)
    · exact Or.inr (Or.inr h1)
  · by_cases hpo : pc = old
    · subst hpo
      rcases hb q hq with h1 | h1
      · exact Or.inr (Or.inl ⟨new, hnew, h1⟩)
      · exact Or.inr (Or.inr h1)
    · exact Or.inr (Or.inl ⟨pc, mem_set_other ws i old new pc hget hpc hpo, hq⟩)
  · exact Or.inr (Or.inr (hc _ h))

theorem Move_preserves [CaseTable] (Q s0 : List Str) (i : Nat) (m m1 : Machine (List Str))
    (ev : Option LinkEvent) (hinv : Inv sum256 contents o Q s0 m)
    (hmove : Move sum256 contents o i m m1 ev) :
    Inv sum256 contents o Q s0 m1 := by
  cases hmove with
  | stay _ => exact hinv
  | crash p _ _ =>
    exact ⟨hinv.pending_sub, hinv.workers_ok, hinv.count, hinv.files_cover, hinv.dirs_cover,
      hinv.fixed⟩
  | handoff p rest hget hp =>
    have hpQ : p ∈ Q := hinv.pending_sub p (by rw [hp]; exact List.mem_cons_self _ _)
    have hadd := sum_map_set PC.adds m.workers i _ (PC.hash p) hget
    have hlk := sum_map_set (PC.links sum256 contents o) m.workers i _ (PC.hash p) hget
    simp only [PC.adds, PC.links, add_zero] at hadd hlk
    refine ⟨?_, ?_, ?_, ?_, ?_, hinv.fixed⟩
    · intro x hx
      exact hinv.pending_sub x (by rw [hp]; exact List.mem_cons_of_mem _ hx)
    · exact ok_set sum256 contents o Q _ i _ hinv.workers_ok hpQ
    · have hc := hinv.count
      simp only [Machine.adds, Machine.toLink, hp, List.map_cons] at hc ⊢
      rw [hc, hadd, hlk, ← Multiset.cons_coe, ← Multiset.singleton_add]
      congr 3
      abel
    · intro q hq
      refine cover_set PC.path (storePath sum256 contents o) m.workers i _ _ m.pending rest
        m.fs m.fs hget ?_ ?_ (fun _ h => h) q (hinv.files_cover q hq)
      · intro x hx
        rw [hp] at hx
        rcases List.mem_cons.mp hx with h | h
        · exact Or.inr (Or.inl (by rw [h]; rfl))
        · exact Or.inl h
      · intro x hx; simp [PC.path] at hx
    · intro q hq
      refine cover_set PC.dirPath (shardDir sum256 contents o) m.workers i _ _ m.pending rest
        m.fs m.fs hget ?_ ?_ (fun _ h => h) q (hinv.dirs_cover q hq)
      · intro x hx
        rw [hp] at hx
        rcases List.mem_cons.mp hx with h | h
        · exact Or.inr (Or.inl (by rw [h]; rfl))
        · exact Or.inl h
      · intro x hx; simp [PC.dirPath] at hx
  | close hget hp =>
    have hadd := sum_map_set PC.adds m.workers i _ PC.done hget
    have hlk := sum_map_set (PC.links sum256 contents o) m.workers i _ PC.done hget
    simp only [PC.adds, PC.links, add_zero] at hadd hlk
    refine ⟨hinv.pending_sub, ?_, ?_, ?_, ?_, hinv.fixed⟩
    · exact ok_set sum256 contents o Q _ i _ hinv.workers_ok trivial
    · have hc := hinv.count
      simp only [Machine.adds, Machine.toLink] at hc ⊢
      rw [hc, hadd, hlk]
    · intro q hq
      exact cover_set PC.path (storePath sum256 contents o) m.workers i _ _ m.pending m.pending
        m.fs m.fs hget (fun _ h => Or.inl h) (fun x hx => by simp [PC.path] at hx)
        (fun _ h => h) q (hinv.files_cover q hq)
    · intro q hq
      exact cover_set PC.dirPath (shardDir sum256 contents o) m.workers i _ _ m.pending
        m.pending m.fs m.fs hget (fun _ h => Or.inl h) (fun x hx => by simp [PC.dirPath] at hx)
        (fun _ h => h) q (hinv.dirs_cover q hq)
  | hashed p c log hget hc =>
    have hold : PC.ok sum256 contents o Q (PC.hash p) :=
      hinv.workers_ok _ (mem_of_getElem _ i _ hget)
    have hsp : storePath sum256 contents o p = filename o (sum256 c) p := by
      simp [storePath, hc]
    have hsd : shardDir sum256 contents o p = dirname o (sum256 c) := by
      simp [shardDir, hc]
    have hadd := sum_map_set PC.adds m.workers i _
      (PC.mkdir p (dirname o (sum256 c)) (filename o (sum256 c) p)) hget
    have hlk := sum_map_set (PC.links sum256 contents o) m.workers i _
      (PC.mkdir p (dirname o (sum256 c)) (filename o (sum256 c) p)) hget
    simp only [PC.adds, PC.links, add_zero, hsp, add_left_inj] at hadd hlk
    refine ⟨hinv.pending_sub, ?_, ?_, ?_, ?_, hinv.fixed⟩
    · exact ok_set sum256 contents o Q _ i _ hinv.workers_ok ⟨hold, hsd.symm, hsp.symm⟩
    · have hcn := hinv.count
      simp only [Machine.adds, Machine.toLink] at hcn ⊢
      rw [hcn, hadd, hlk]
    · intro q hq
      exact cover_set PC.path (storePath sum256 contents o) m.workers i _ _ m.pending m.pending
        m.fs m.fs hget (fun _ h => Or.inl h) (fun x hx => Or.inl (by simpa [PC.path] using hx))
        (fun _ h => h) q (hinv.files_cover q hq)
    · intro q hq
      exact cover_set PC.dirPath (shardDir sum256 contents o) m.workers i _ _ m.pending
        m.pending m.fs m.fs hget (fun _ h => Or.inl h)
        (fun x hx => Or.inl (by simpa [PC.dirPath] using hx))
        (fun _ h => h) q (hinv.dirs_cover q hq)
  | mkdir p d f hget =>
    have hold : PC.ok sum256 contents o Q (PC.mkdir p d f) :=
      hinv.workers_ok _ (mem_of_getElem _ i _ hget)
    have hadd := sum_map_set PC.adds m.workers i _ (PC.link p f) hget
    have hlk := sum_map_set (PC.links sum256 contents o) m.workers i _ (PC.link p f) hget
    simp only [PC.adds, PC.links, add_zero, add_left_inj] at hadd hlk
    have hsub : ∀ x ∈ m.fs, x ∈ withDir m.fs d := fun x h => (mem_withDir _ _ _).mpr (Or.inr h)
    refine ⟨hinv.pending_sub, ?_, ?_, ?_, ?_, ?_⟩
    · exact ok_set sum256 contents o Q _ i _ hinv.workers_ok ⟨hold.1, hold.2.2⟩
    · have hcn := hinv.count
      simp only [Machine.adds, Machine.toLink] at hcn ⊢
      rw [hcn, hadd, hlk, toCome_withDir]
      rw [hold.2.1]
      exact shardDir_not_mem_toLink sum256 contents o Q _ _ hinv.workers_ok p
    · intro q hq
      exact cover_set PC.path (storePath sum256 contents o) m.workers i _ _ m.pending m.pending
        m.fs _ hget (fun _ h => Or.inl h) (fun x hx => Or.inl (by simpa [PC.path] using hx))
        hsub q (hinv.files_cover q hq)
    · intro q hq
      refine cover_set PC.dirPath (shardDir sum256 contents o) m.workers i _ _ m.pending
        m.pending m.fs _ hget (fun _ h => Or.inl h) ?_ hsub q (hinv.dirs_cover q hq)
      intro x hx
      simp only [PC.dirPath, Option.some.injEq] at hx
      subst hx
      exact Or.inr ((mem_withDir _ _ _).mpr (Or.inl hold.2.1.symm))
    · intro hK
      have hfs := hinv.fixed hK
      show withDir m.fs d = s0
      rw [hfs, hold.2.1]
      simp [withDir, (hK p hold.1).2]
  | linkNew p f hget hf =>
    have hold : PC.ok sum256 contents o Q (PC.link p f) :=
      hinv.workers_ok _ (mem_of_getElem _ i _ hget)
    have hadd := sum_map_set PC.adds m.workers i _ PC.recv hget
    have hlk := sum_map_set (PC.links sum256 contents o) m.workers i _ PC.recv hget
    simp only [PC.adds, PC.links, add_zero] at hadd hlk
    have hsub : ∀ x ∈ m.fs, x ∈ f :: m.fs := fun x h => List.mem_cons_of_mem _ h
    refine ⟨hinv.pending_sub, ?_, ?_, ?_, ?_, ?_⟩
    · exact ok_set sum256 contents o Q _ i _ hinv.workers_ok trivial
    · have hcn := hinv.count
      simp only [Machine.adds, Machine.toLink] at hcn ⊢
      rw [hcn, hadd, ← hlk, ← add_assoc, toCome_add_of_not_mem _ _ _ hf]
    · intro q hq
      refine cover_set PC.path (storePath sum256 contents o) m.workers i _ _ m.pending m.pending
        m.fs _ hget (fun _ h => Or.inl h) ?_ hsub q (hinv.files_cover q hq)
      intro x hx
      simp only [PC.path, Option.some.injEq] at hx
      subst hx
      exact Or.inr (by rw [← hold.2]; exact List.mem_cons_self _ _)
    · intro q hq
      exact cover_set PC.dirPath (shardDir sum256 contents o) m.workers i _ _ m.pending
        m.pending m.fs _ hget (fun _ h => Or.inl h) (fun x hx => by simp [PC.dirPath] at hx)
        hsub q (hinv.dirs_cover q hq)
    · intro hK
      have hfs := hinv.fixed hK
      exact absurd (by rw [hfs, hold.2]; exact (hK p hold.1).1) hf
  | linkDup p f hget hf =>
    have hold : PC.ok sum256 contents o Q (PC.link p f) :=
      hinv.workers_ok _ (mem_of_getElem _ i _ hget)
    have hadd := sum_map_set PC.adds m.workers i _ PC.add hget
    have hlk := sum_map_set (PC.links sum256 contents o) m.workers i _ PC.add hget
    simp only [PC.adds, PC.links, add_zero] at hadd hlk
    refine ⟨hinv.pending_sub, ?_, ?_, ?_, ?_, hinv.fixed⟩
    · exact ok_set sum256 contents o Q _ i _ hinv.workers_ok trivial
    · have hcn := hinv.count
      simp only [Machine.adds, Machine.toLink] at hcn ⊢
      rw [hcn, hadd, ← hlk, ← add_assoc, toCome_add_of_mem _ _ _ hf]
      congr 1
      push_cast
      ring
    · intro q hq
      refine cover_set PC.path (storePath sum256 contents o) m.workers i _ _ m.pending m.pending
        m.fs m.fs hget (fun _ h => Or.inl h) ?_ (fun _ h => h) q (hinv.files_cover q hq)
      intro x hx
      simp only [PC.path, Option.some.injEq] at hx
      subst hx
      exact Or.inr (by rw [← hold.2]; exact hf)
    · intro q hq
      exact cover_set PC.dirPath (shardDir sum256 contents o) m.workers i _ _ m.pending
        m.pending m.fs m.fs hget (fun _ h => Or.inl h) (fun x hx => by simp [PC.dirPath] at hx)
        (fun _ h => h) q (hinv.dirs_cover q hq)
  | add hget =>
    have hadd := sum_map_set PC.adds m.workers i _ PC.recv hget
    have hlk := sum_map_set (PC.links sum256 contents o) m.workers i _ PC.recv hget
    simp only [PC.adds, PC.links, add_zero] at hadd hlk
    refine ⟨hinv.pending_sub, ?_, ?_, ?_, ?_, hinv.fixed⟩
    · exact ok_set sum256 contents o Q _ i _ hinv.workers_ok trivial
    · have hcn := hinv.count
      simp only [Machine.adds, Machine.toLink] at hcn ⊢
      rw [hcn, ← hadd, hlk, AddInt32, wrapInt32_add_wrap]
      congr 1
      push_cast
      ring
    · intro q hq
      exact cover_set PC.path (storePath sum256 contents o) m.workers i _ _ m.pending m.pending
        m.fs m.fs hget (fun _ h => Or.inl h) (fun x hx => by simp [PC.path] at hx)
        (fun _ h => h) q (hinv.files_cover q hq)
    · intro q hq
      exact cover_set PC.dirPath (shardDir sum256 contents o) m.workers i _ _ m.pending
        m.pending m.fs m.fs hget (fun _ h => Or.inl h) (fun x hx => by simp [PC.dirPath] at hx)
        (fun _ h => h) q (hinv.dirs_cover q hq)

theorem sum_all_zero {M : Type} [AddCommMonoid M] (f : PC → M) (pc0 : PC) (hf : f pc0 = 0) :
    ∀ ws : List PC, (∀ pc ∈ ws, pc = pc0) → (ws.map f).sum = 0 := by
  intro ws
  induction ws with
  | nil => intro _; rfl
  | cons w ws ih =>
    intro h
    simp only [List.map_cons, List.sum_cons]
    rw [h w (List.mem_cons_self _ _), hf, zero_add]
    exact ih (fun pc hpc => h pc (List.mem_cons_of_mem _ hpc))

theorem Inv_init [CaseTable] (Q s0 : List Str) (n : Nat) :
    Inv sum256 contents o Q s0 (Machine.init n Q s0) := by
  have hrecv : ∀ pc ∈ List.replicate n PC.recv, pc = PC.recv := fun pc h =>
    List.eq_of_mem_replicate h
  have hadds : ((List.replicate n PC.recv).map PC.adds).sum = 0 :=
    sum_all_zero PC.adds PC.recv rfl _ hrecv
  have hlinks : ((List.replicate n PC.recv).map (PC.links sum256 contents o)).sum = 0 :=
    sum_all_zero (PC.links sum256 contents o) PC.recv rfl _ hrecv
  refine ⟨fun p h => h, ?_, ?_, fun q hq => Or.inl hq, fun q hq => Or.inl hq, fun _ => rfl⟩
  · intro pc hpc
    rw [hrecv pc hpc]
    trivial
  · simp only [Machine.init, Machine.adds, Machine.toLink, hadds, hlinks, add_zero]
    simp [wrapInt32]

theorem run_inv [CaseTable] (Q s0 : List Str) : ∀ (schedule : List Nat) (m : Machine (List Str)),
    Inv sum256 contents o Q s0 m →
    Inv sum256 contents o Q s0 (m.run (setOS sum256 contents) o schedule) := by
  intro schedule
  induction schedule with
  | nil => intro m h; exact h
  | cons i rest ih =>
    intro m h
    simp only [Machine.run, List.foldl_cons]
    exact ih _ (Move_preserves sum256 contents o Q s0 i m _ _ h (step_move sum256 contents o m i))

theorem finished_spec (m : Machine (List Str)) (h : m.finished = true) :
    m.crashed = none ∧ m.pending = [] ∧ ∀ pc ∈ m.workers, pc = PC.done := by
  simp only [Machine.finished, Bool.and_eq_true, Option.isNone_iff_eq_none, List.isEmpty_iff,
    List.all_eq_true, decide_eq_true_eq] at h
  exact ⟨h.1.1, h.1.2, h.2⟩

theorem toCome_all_mem (fs : List Str) (R : Multiset Str) (h : ∀ x ∈ R, x ∈ fs) :
    toCome fs R = Multiset.card R := by
  have h1 : R.toFinset.filter (fun x => x ∉ fs) = ∅ := by
    apply Finset.filter_eq_empty_iff.mpr
    intro x hx
    simpa using h x (Multiset.mem_toFinset.mp hx)
  simp [toCome, h1]

theorem final_state [CaseTable] (Q s0 : List Str) (m : Machine (List Str))
    (hinv : Inv sum256 contents o Q s0 m) (hfin : m.finished = true) :
    m.duplicates = wrapInt32 (toCome s0 (Q.map (storePath sum256 contents o) : Multiset Str)) ∧
    (∀ q ∈ Q, storePath sum256 contents o q ∈ m.fs ∧ shardDir sum256 contents o q ∈ m.fs) ∧
    ((∀ q ∈ Q, storePath sum256 contents o q ∈ s0 ∧ shardDir sum256 contents o q ∈ s0) →
      m.fs = s0) := by
  obtain ⟨-, hpend, hdone⟩ := finished_spec m hfin
  refine ⟨?_, ?_, hinv.fixed⟩
  · have hc := hinv.count
    have hadds : (m.workers.map PC.adds).sum = 0 := sum_all_zero PC.adds PC.done rfl _ hdone
    have hlinks : (m.workers.map (PC.links sum256 contents o)).sum = 0 :=
      sum_all_zero (PC.links sum256 contents o) PC.done rfl _ hdone
    simp only [Machine.adds, Machine.toLink, hadds, hlinks, hpend, List.map_nil] at hc
    rw [hc]
    simp [toCome_zero]
  · intro q hq
    constructor
    · rcases hinv.files_cover q hq with h | ⟨pc, hpc, hp⟩ | h
      · rw [hpend] at h; simp at h
      · rw [hdone pc hpc] at hp; simp [PC.path] at hp
      · exact h
    · rcases hinv.dirs_cover q hq with h | ⟨pc, hpc, hp⟩ | h
      · rw [hpend] at h; simp at h
      · rw [hdone pc hpc] at hp; simp [PC.dirPath] at hp
      · exact h

theorem mainPar_result [CaseTable] (cfg : Config) (input : List (Str × Entry)) (fs0 : List Str)
    (schedule : List Nat) (r : Summary × List Str)
    (h : mainPar cfg (setOS sum256 contents) input fs0 schedule = some r) :
    r.1 = ⟨(produce cfg input Producer.start).skipped, (produce cfg input Producer.start).files,
      wrapInt32 (toCome fs0 ((produce cfg input Producer.start).queue.map
        (storePath sum256 contents cfg.output) : Multiset Str))⟩ ∧
    (∀ q ∈ (produce cfg input Producer.start).queue,
      storePath sum256 contents cfg.output q ∈ r.2 ∧
      shardDir sum256 contents cfg.output q ∈ r.2) ∧
    ((∀ q ∈ (produce cfg input Producer.start).queue,
        storePath sum256 contents cfg.output q ∈ fs0 ∧
        shardDir sum256 contents cfg.output q ∈ fs0) → r.2 = fs0) := by
  simp only [mainPar] at h
  split at h
  · rename_i hfin
    have hinv := run_inv sum256 contents cfg.output (produce cfg input Producer.start).queue fs0
      schedule _ (Inv_init sum256 contents cfg.output _ fs0 cfg.parallelism)
    have hf := final_state sum256 contents cfg.output _ fs0 _ hinv hfin
    simp only [Option.some.injEq] at h
    subst h
    exact ⟨by rw [hf.1], hf.2.1, hf.2.2⟩
  · simp at h

theorem produce_parallelism [CaseTable] (cfg : Config) (n : Nat) :
    ∀ (input : List (Str × Entry)) (st : Producer),
      produce { cfg with parallelism := n } input st = produce cfg input st := by
  intro input
  induction input with
  | nil => intro st; rfl
  | cons x rest ih =>
    intro st
    obtain ⟨dir, node⟩ := x
    simp only [produce]
    rw [ih]
    rfl

/-! ## A schedule that runs the pool to its end -/

theorem getElem_append_length {α : Type} (x : α) (R : List α) :
    ∀ ds : List α, (ds ++ x :: R)[ds.length]? = some x := by
  intro ds
  induction ds with
  | nil => simp
  | cons d ds ih => simpa using ih

theorem set_append_length {α : Type} (x y : α) (R : List α) :
    ∀ ds : List α, (ds ++ x :: R).set ds.length y = ds ++ y :: R := by
  intro ds
  induction ds with
  | nil => rfl
  | cons d ds ih => simp [ih]

theorem run_append [CaseTable]
    {σ : Type} (os : OS σ) (out : Str) (m : Machine σ) (s1 s2 : List Nat) :
    m.run os out (s1 ++ s2) = (m.run os out s1).run os out s2 := by
  simp [Machine.run, List.foldl_append]

/-- Worker 0 alone takes the whole queue through, when every queued file can be read. -/
theorem drive_first [CaseTable] (n : Nat) : ∀ (k : Nat) (m : Machine (List Str)) (pc0 : PC),
    m.crashed = none → m.workers = pc0 :: List.replicate n PC.recv →
    (pc0 = PC.done → m.pending = []) →
    (∀ p ∈ m.pending, contents p ≠ none) → (∀ p, pc0 = PC.hash p → contents p ≠ none) →
    5 * m.pending.length + pc0.stage ≤ k →
    (m.run (setOS sum256 contents) o (List.replicate k 0)).crashed = none ∧
    (m.run (setOS sum256 contents) o (List.replicate k 0)).pending = [] ∧
    (m.run (setOS sum256 contents) o (List.replicate k 0)).workers =
      PC.done :: List.replicate n PC.recv := by
  intro k
  induction k with
  | zero =>
    intro m pc0 hcr hw hdone _ _ hk
    have hst : pc0.stage = 0 := by omega
    have hpc : pc0 = PC.done := by
      cases pc0 <;> simp [PC.stage] at hst
      rfl
    subst hpc
    exact ⟨hcr, hdone rfl, hw⟩
  | succ k ih =>
    intro m pc0 hcr hw hdone hread hhash hk
    have hget : m.workers[0]? = some pc0 := by rw [hw]; simp
    have hrun : m.run (setOS sum256 contents) o (List.replicate (k + 1) 0) =
        (Machine.step (setOS sum256 contents) o m 0).run (setOS sum256 contents) o
          (List.replicate k 0) := by
      simp [Machine.run, List.replicate_succ]
    rw [hrun]
    have hmove := step_move sum256 contents o m 0
    generalize Machine.step (setOS sum256 contents) o m 0 = m1 at hmove
    generalize Machine.linkEvent (setOS sum256 contents) m 0 = ev at hmove
    cases hmove with
    | stay hst =>
      rcases hst with h | h | h
      · simp [hcr] at h
      · rw [hget] at h; simp at h
      · rw [hget] at h
        simp only [Option.some.injEq] at h
        subst h
        have hp := hdone rfl
        exact ih m PC.done hcr hw hdone hread hhash (by simp [hp, PC.stage])
    | crash p hg hc =>
      rw [hget] at hg
      simp only [Option.some.injEq] at hg
      exact absurd hc (hhash p hg)
    | handoff p rest hg hp =>
      rw [hget] at hg
      simp only [Option.some.injEq] at hg
      subst hg
      refine ih _ (PC.hash p) hcr (by simp [hw]) (fun h => by cases h) ?_ ?_ ?_
      · intro q hq
        exact hread q (by rw [hp]; exact List.mem_cons_of_mem _ hq)
      · intro q hq
        cases hq
        exact hread p (by rw [hp]; exact List.mem_cons_self _ _)
      · simp only [hp, List.length_cons, PC.stage] at hk ⊢
        omega
    | close hg hp =>
      rw [hget] at hg
      simp only [Option.some.injEq] at hg
      subst hg
      refine ih _ PC.done hcr (by simp [hw]) (fun _ => hp) hread (fun q h => by cases h) ?_
      simp only [hp, List.length_nil, PC.stage]
      omega
    | hashed p c log hg hc =>
      rw [hget] at hg
      simp only [Option.some.injEq] at hg
      subst hg
      refine ih _ (PC.mkdir p (dirname o (sum256 c)) (filename o (sum256 c) p)) hcr
        (by simp [hw]) (fun h => by cases h) hread (fun q h => by cases h) ?_
      simp only [PC.stage] at hk ⊢
      omega
    | mkdir p d f hg =>
      rw [hget] at hg
      simp only [Option.some.injEq] at hg
      subst hg
      refine ih _ (PC.link p f) hcr (by simp [hw]) (fun h => by cases h) hread
        (fun q h => by cases h) ?_
      simp only [PC.stage] at hk ⊢
      omega
    | linkNew p f hg hf =>
      rw [hget] at hg
      simp only [Option.some.injEq] at hg
      subst hg
      refine ih _ PC.recv hcr (by simp [hw]) (fun h => by cases h) hread
        (fun q h => by cases h) ?_
      simp only [PC.stage] at hk ⊢
      omega
    | linkDup p f hg hf =>
      rw [hget] at hg
      simp only [Option.some.injEq] at hg
      subst hg
      refine ih _ PC.add hcr (by simp [hw]) (fun h => by cases h) hread
        (fun q h => by cases h) ?_
      simp only [PC.stage] at hk ⊢
      omega
    | add hg =>
      rw [hget] at hg
      simp only [Option.some.injEq] at hg
      subst hg
      refine ih _ PC.recv hcr (by simp [hw]) (fun h => by cases h) hread
        (fun q h => by cases h) ?_
      simp only [PC.stage] at hk ⊢
      omega

/-- Once nothing is left to send, the waiting workers end one after the other. -/
theorem close_rest [CaseTable] {σ : Type} (os : OS σ) (out : Str) : ∀ (b : Nat) (ds : List PC)
    (m : Machine σ), m.crashed = none → m.pending = [] → (∀ pc ∈ ds, pc = PC.done) →
    m.workers = ds ++ List.replicate b PC.recv →
    ∃ schedule, (m.run os out schedule).finished = true := by
  intro b
  induction b with
  | zero =>
    intro ds m hcr hp hds hw
    refine ⟨[], ?_⟩
    simp only [Machine.run, List.foldl_nil, Machine.finished, hcr, hp, hw, List.replicate_zero,
      List.append_nil, Option.isNone_none, List.isEmpty_nil, Bool.true_and, List.all_eq_true,
      decide_eq_true_eq]
    exact hds
  | succ b ih =>
    intro ds m hcr hp hds hw
    have hget : m.workers[ds.length]? = some PC.recv := by
      rw [hw, List.replicate_succ]; exact getElem_append_length _ _ ds
    have hstep : Machine.step os out m ds.length =
        { m with workers := m.workers.set ds.length PC.done } := by
      simp [Machine.step, hcr, hget, hp]
    obtain ⟨schedule, hs⟩ := ih (ds ++ [PC.done])
      { m with workers := m.workers.set ds.length PC.done } hcr hp
      (by
        intro pc hpc
        rcases List.mem_append.mp hpc with h | h
        · exact hds pc h
        · simpa using h)
      (by
        show m.workers.set ds.length PC.done = _
        rw [hw, List.replicate_succ, set_append_length]
        simp)
    refine ⟨ds.length :: schedule, ?_⟩
    simp only [Machine.run, List.foldl_cons, hstep]
    exact hs

theorem exists_finishing [CaseTable]
    (Q s0 : List Str) (n : Nat) (hread : ∀ p ∈ Q, contents p ≠ none) :
    ∃ schedule,
      ((Machine.init (n + 1) Q s0).run (setOS sum256 contents) o schedule).finished = true := by
  obtain ⟨h1, h2, h3⟩ := drive_first sum256 contents o n (5 * Q.length + 1)
    (Machine.init (n + 1) Q s0) PC.recv rfl (by simp [Machine.init, List.replicate_succ])
    (fun h => by cases h) hread (fun p h => by cases h) (by simp [Machine.init, PC.stage])
  obtain ⟨s2, hs2⟩ := close_rest (setOS sum256 contents) o n [PC.done] _ h1 h2
    (by simp) (by rw [h3]; rfl)
  exact ⟨List.replicate (5 * Q.length + 1) 0 ++ s2, by rw [run_append]; exact hs2⟩

theorem mainPar_exists [CaseTable]
    (cfg : Config) (input : List (Str × Entry)) (fs0 : List Str) (n : Nat)
    (hpar : cfg.parallelism = n + 1)
    (hread : ∀ p ∈ (produce cfg input Producer.start).queue, contents p ≠ none) :
    ∃ schedule r, mainPar cfg (setOS sum256 contents) input fs0 schedule = some r := by
  obtain ⟨schedule, hs⟩ := exists_finishing sum256 contents cfg.output
    (produce cfg input Producer.start).queue fs0 n hread
  refine ⟨schedule, ?_⟩
  simp only [mainPar, hpar, hs, if_true]
  exact ⟨_, rfl⟩

/-! ## The link attempts of a run -/

theorem order_snoc (s0 : List Str) (T : List LinkEvent) (e : LinkEvent)
    (hT : ∀ T1 e0 T2, T = T1 ++ e0 :: T2 →
      (e0.existed = false ↔ e0.file ∉ s0 ∧ ∀ x ∈ T1, x.file ≠ e0.file))
    (he : e.existed = false ↔ e.file ∉ s0 ∧ ∀ x ∈ T, x.file ≠ e.file) :
    ∀ T1 e0 T2, T ++ [e] = T1 ++ e0 :: T2 →
      (e0.existed = false ↔ e0.file ∉ s0 ∧ ∀ x ∈ T1, x.file ≠ e0.file) := by
  intro T1 e0 T2 h
  rcases List.eq_nil_or_concat T2 with rfl | ⟨T2a, z, rfl⟩
  · obtain ⟨h1, h2⟩ := List.append_inj' h rfl
    cases h2
    subst h1
    exact he
  · have h' : T ++ [e] = (T1 ++ e0 :: T2a) ++ [z] := by simpa using h
    obtain ⟨h1, _⟩ := List.append_inj' h' rfl
    exact hT T1 e0 T2a h1

theorem two_mem_split {α : Type} (l : List α) (x y : α) (hx : x ∈ l) (hy : y ∈ l)
    (hne : x ≠ y) :
    ∃ T1 T2 T3, l = T1 ++ x :: (T2 ++ y :: T3) ∨ l = T1 ++ y :: (T2 ++ x :: T3) := by
  obtain ⟨A, B, rfl⟩ := List.append_of_mem hx
  rcases List.mem_append.mp hy with h | h
  · obtain ⟨A1, A2, rfl⟩ := List.append_of_mem h
    exact ⟨A1, A2, B, Or.inr (by simp)⟩
  · rcases List.mem_cons.mp h with h | h
    · exact absurd h.symm hne
    · obtain ⟨B1, B2, rfl⟩ := List.append_of_mem h
      exact ⟨A, B1, B2, Or.inl rfl⟩

theorem TraceInv_init [CaseTable] (Q s0 : List Str) (n : Nat) :
    TraceInv sum256 contents o Q s0 (Machine.init n Q s0) [] := by
  have hrecv : ∀ pc ∈ List.replicate n PC.recv, pc = PC.recv := fun pc h =>
    List.eq_of_mem_replicate h
  have hheld : ((List.replicate n PC.recv).map PC.held).sum = 0 :=
    sum_all_zero PC.held PC.recv rfl _ hrecv
  have hadds : ((List.replicate n PC.recv).map PC.adds).sum = 0 :=
    sum_all_zero PC.adds PC.recv rfl _ hrecv
  refine ⟨fun x h => Or.inl h, by simp, fun x h => h, ?_, ?_, by simp, ?_⟩
  · intro T1 e T2 h
    simp at h
  · simp only [Machine.init, hheld, List.map_nil]
    simp
  · simp only [Machine.init, Machine.adds, hadds, List.filter_nil, List.length_nil]
    simp [wrapInt32]

theorem TraceMove_preserves [CaseTable] (Q s0 : List Str) (i : Nat) (m m1 : Machine (List Str))
    (ev : Option LinkEvent) (T : List LinkEvent) (hinv : Inv sum256 contents o Q s0 m)
    (ht : TraceInv sum256 contents o Q s0 m T) (hmove : Move sum256 contents o i m m1 ev) :
    TraceInv sum256 contents o Q s0 m1 (T ++ ev.toList) := by
  cases hmove with
  | stay _ => simpa using ht
  | crash p _ _ =>
    simp only [Option.toList, List.append_nil]
    exact ⟨ht.fs_src, ht.linked, ht.init_sub, ht.order, ht.paths, ht.files, ht.dups⟩
  | handoff p rest hget hp =>
    have hadd := sum_map_set PC.adds m.workers i _ (PC.hash p) hget
    have hheld := sum_map_set PC.held m.workers i _ (PC.hash p) hget
    simp only [PC.adds, PC.held, add_zero] at hadd hheld
    simp only [Option.toList, List.append_nil]
    refine ⟨ht.fs_src, ht.linked, ht.init_sub, ht.order, ?_, ht.files, ?_⟩
    · have hpaths := ht.paths
      simp only [hp] at hpaths
      simp only
      rw [hpaths, hheld, ← Multiset.cons_coe, ← Multiset.singleton_add]
      abel
    · have hd := ht.dups
      simp only [Machine.adds] at hd ⊢
      rw [hd, hadd]
  | close hget hp =>
    have hadd := sum_map_set PC.adds m.workers i _ PC.done hget
    have hheld := sum_map_set PC.held m.workers i _ PC.done hget
    simp only [PC.adds, PC.held, add_zero] at hadd hheld
    simp only [Option.toList, List.append_nil]
    refine ⟨ht.fs_src, ht.linked, ht.init_sub, ht.order, ?_, ht.files, ?_⟩
    · have hpaths := ht.paths
      simp only
      rw [hpaths, hheld]
    · have hd := ht.dups
      simp only [Machine.adds] at hd ⊢
      rw [hd, hadd]
  | hashed p c log hget hc =>
    have hadd := sum_map_set PC.adds m.workers i _
      (PC.mkdir p (dirname o (sum256 c)) (filename o (sum256 c) p)) hget
    have hheld := sum_map_set PC.held m.workers i _
      (PC.mkdir p (dirname o (sum256 c)) (filename o (sum256 c) p)) hget
    simp only [PC.adds, PC.held, add_zero, add_left_inj] at hadd hheld
    simp only [Option.toList, List.append_nil]
    refine ⟨ht.fs_src, ht.linked, ht.init_sub, ht.order, ?_, ht.files, ?_⟩
    · have hpaths := ht.paths
      simp only
      rw [hpaths, hheld]
    · have hd := ht.dups
      simp only [Machine.adds] at hd ⊢
      rw [hd, hadd]
  | mkdir p d f hget =>
    have hold : PC.ok sum256 contents o Q (PC.mkdir p d f) :=
      hinv.workers_ok _ (mem_of_getElem _ i _ hget)
    have hadd := sum_map_set PC.adds m.workers i _ (PC.link p f) hget
    have hheld := sum_map_set PC.held m.workers i _ (PC.link p f) hget
    simp only [PC.adds, PC.held, add_zero, add_left_inj] at hadd hheld
    simp only [Option.toList, List.append_nil]
    refine ⟨?_, ?_, ?_, ht.order, ?_, ht.files, ?_⟩
    · intro x hx
      rcases (mem_withDir _ _ _).mp hx with h | h
      · exact Or.inr (Or.inl ⟨p, h.trans hold.2.1⟩)
      · exact ht.fs_src x h
    · intro e he
      exact (mem_withDir _ _ _).mpr (Or.inr (ht.linked e he))
    · intro x hx
      exact (mem_withDir _ _ _).mpr (Or.inr (ht.init_sub x hx))
    · have hpaths := ht.paths
      simp only
      rw [hpaths, hheld]
    · have hd := ht.dups
      simp only [Machine.adds] at hd ⊢
      rw [hd, hadd]
  | linkNew p f hget hf =>
    have hold : PC.ok sum256 contents o Q (PC.link p f) :=
      hinv.workers_ok _ (mem_of_getElem _ i _ hget)
    have hadd := sum_map_set PC.adds m.workers i _ PC.recv hget
    have hheld := sum_map_set PC.held m.workers i _ PC.recv hget
    simp only [PC.adds, PC.held, add_zero] at hadd hheld
    simp only [Option.toList]
    refine ⟨?_, ?_, ?_, ?_, ?_, ?_, ?_⟩
    · intro x hx
      rcases List.mem_cons.mp hx with h | h
      · exact Or.inr (Or.inr ⟨⟨p, f, false⟩, by simp, rfl, h.symm⟩)
      · rcases ht.fs_src x h with h1 | h1 | ⟨e, he, h2⟩
        · exact Or.inl h1
        · exact Or.inr (Or.inl h1)
        · exact Or.inr (Or.inr ⟨e, List.mem_append_left _ he, h2⟩)
    · intro e he
      rcases List.mem_append.mp he with h | h
      · exact List.mem_cons_of_mem _ (ht.linked e h)
      · simp only [List.mem_singleton] at h
        subst h
        exact List.mem_cons_self _ _
    · intro x hx
      exact List.mem_cons_of_mem _ (ht.init_sub x hx)
    · apply order_snoc s0 T _ ht.order
      simp only [true_iff]
      exact ⟨fun h => hf (ht.init_sub _ h), fun x hx h => hf (h ▸ ht.linked x hx)⟩
    · have hpaths := ht.paths
      simp only [List.map_append, List.map_cons, List.map_nil]
      rw [hpaths, ← hheld, ← Multiset.coe_add, ← Multiset.coe_singleton]
      abel
    · intro e he
      rcases List.mem_append.mp he with h | h
      · exact ht.files e h
      · simp only [List.mem_singleton] at h
        subst h
        exact ⟨hold.1, hold.2⟩
    · have hd := ht.dups
      simp only [Machine.adds] at hd ⊢
      rw [hd, hadd]
      simp [List.filter_append]
  | linkDup p f hget hf =>
    have hold : PC.ok sum256 contents o Q (PC.link p f) :=
      hinv.workers_ok _ (mem_of_getElem _ i _ hget)
    have hadd := sum_map_set PC.adds m.workers i _ PC.add hget
    have hheld := sum_map_set PC.held m.workers i _ PC.add hget
    simp only [PC.adds, PC.held, add_zero] at hadd hheld
    simp only [Option.toList]
    refine ⟨?_, ?_, ht.init_sub, ?_, ?_, ?_, ?_⟩
    · intro x hx
      rcases ht.fs_src x hx with h1 | h1 | ⟨e, he, h2⟩
      · exact Or.inl h1
      · exact Or.inr (Or.inl h1)
      · exact Or.inr (Or.inr ⟨e, List.mem_append_left _ he, h2⟩)
    · intro e he
      rcases List.mem_append.mp he with h | h
      · exact ht.linked e h
      · simp only [List.mem_singleton] at h
        subst h
        exact hf
    · apply order_snoc s0 T _ ht.order
      simp only [Bool.true_eq_false, false_iff, not_and, not_forall, Classical.not_imp,
        not_not]
      intro hns
      rcases ht.fs_src f hf with h1 | ⟨q, h1⟩ | ⟨e, he, _, h2⟩
      · exact absurd h1 hns
      · exact absurd (hold.2 ▸ h1).symm (shardDir_ne_storePath sum256 contents o q p)
      · exact ⟨e, he, h2⟩
    · have hpaths := ht.paths
      simp only [List.map_append, List.map_cons, List.map_nil]
      rw [hpaths, ← hheld, ← Multiset.coe_add, ← Multiset.coe_singleton]
      abel
    · intro e he
      rcases List.mem_append.mp he with h | h
      · exact ht.files e h
      · simp only [List.mem_singleton] at h
        subst h
        exact ⟨hold.1, hold.2⟩
    · have hd := ht.dups
      simp only [Machine.adds] at hd ⊢
      rw [hd, hadd]
      simp only [List.filter_append, List.length_append, List.filter_cons, List.filter_nil,
        if_true, List.length_singleton]
      congr 1
      push_cast
      ring
  | add hget =>
    have hadd := sum_map_set PC.adds m.workers i _ PC.recv hget
    have hheld := sum_map_set PC.held m.workers i _ PC.recv hget
    simp only [PC.adds, PC.held, add_zero] at hadd hheld
    simp only [Option.toList, List.append_nil]
    refine ⟨ht.fs_src, ht.linked, ht.init_sub, ht.order, ?_, ht.files, ?_⟩
    · have hpaths := ht.paths
      simp only
      rw [hpaths, hheld]
    · have hd := ht.dups
      simp only [Machine.adds] at hd ⊢
      rw [hd, ← hadd, AddInt32, wrapInt32_add_wrap]
      congr 1
      push_cast
      ring

theorem run_trace_inv [CaseTable]
    (Q s0 : List Str) : ∀ (schedule : List Nat) (m : Machine (List Str))
    (T : List LinkEvent), Inv sum256 contents o Q s0 m → TraceInv sum256 contents o Q s0 m T →
    TraceInv sum256 contents o Q s0 (m.run (setOS sum256 contents) o schedule)
      (T ++ Machine.trace (setOS sum256 contents) o m schedule) := by
  intro schedule
  induction schedule with
  | nil => intro m T _ ht; simpa [Machine.run, Machine.trace] using ht
  | cons i rest ih =>
    intro m T hinv ht
    have hmove := step_move sum256 contents o m i
    have h1 := Move_preserves sum256 contents o Q s0 i m _ _ hinv hmove
    have h2 := TraceMove_preserves sum256 contents o Q s0 i m _ _ T hinv ht hmove
    have := ih _ _ h1 h2
    simpa [Machine.run, Machine.trace, List.append_assoc] using this

end Pool

/-! ## Two files with the same content -/

/-- C2, amended: in every run of the worker pool over the store as a set of paths (any
number of workers, any schedule), two queued files with the same bytes and the same
lower-cased extension resolve to the same store path; every link attempt is that of a queued
file at its store path; of two link attempts at that store path the later one finds the path
existing (the file is counted as a duplicate), and the earlier one makes a new link exactly
when the store path is neither in the initial store nor the store path of an earlier link
attempt; and once the run has reached its end, every queued file has had exactly one link
attempt, the duplicate total is the number of attempts that found their path existing, and
the two files, whichever of them the schedule brings to its link first, are the two attempts
just described; with at least one worker and every queued file readable, some schedule brings
the run to its end. -/
theorem C2_two_identical_files [CaseTable] (sum256 : Digest) (contents : Str → Option (List Byte))
    (o : Str) (Q s0 : List Str) (n : Nat) (schedule : List Nat) (a b : Str) (c : List Byte)
    (ha : contents a = some c) (hb : contents b = some c)
    (hext : ToLower (Ext a) = ToLower (Ext b)) :
    storePath sum256 contents o a = filename o (sum256 c) a ∧
    storePath sum256 contents o b = storePath sum256 contents o a ∧
    (∀ e ∈ Machine.trace (setOS sum256 contents) o (Machine.init n Q s0) schedule,
      e.path ∈ Q ∧ e.file = storePath sum256 contents o e.path) ∧
    (∀ T1 e1 T2 e2 T3,
      Machine.trace (setOS sum256 contents) o (Machine.init n Q s0) schedule =
        T1 ++ e1 :: (T2 ++ e2 :: T3) →
      e1.file = storePath sum256 contents o a → e2.file = storePath sum256 contents o a →
      e2.existed = true ∧
      (e1.existed = false ↔ storePath sum256 contents o a ∉ s0 ∧
        ∀ x ∈ T1, x.file ≠ storePath sum256 contents o a)) ∧
    (((Machine.init n Q s0).run (setOS sum256 contents) o schedule).finished = true →
      ((Machine.trace (setOS sum256 contents) o (Machine.init n Q s0) schedule).map
        LinkEvent.path : Multiset Str) = (Q : Multiset Str) ∧
      ((Machine.init n Q s0).run (setOS sum256 contents) o schedule).duplicates =
        wrapInt32 ((Machine.trace (setOS sum256 contents) o (Machine.init n Q s0)
          schedule).filter (fun e => e.existed)).length ∧
      (a ∈ Q → b ∈ Q → a ≠ b →
        ∃ T1 e1 T2 e2 T3,
          Machine.trace (setOS sum256 contents) o (Machine.init n Q s0) schedule =
            T1 ++ e1 :: (T2 ++ e2 :: T3) ∧
          ((e1.path = a ∧ e2.path = b) ∨ (e1.path = b ∧ e2.path = a)) ∧
          e1.file = storePath sum256 contents o a ∧
          e2.file = storePath sum256 contents o a ∧
          e2.existed = true ∧
          (e1.existed = false ↔ storePath sum256 contents o a ∉ s0 ∧
            ∀ x ∈ T1, x.file ≠ storePath sum256 contents o a))) ∧
    (0 < n → (∀ p ∈ Q, contents p ≠ none) →
      ∃ s, ((Machine.init n Q s0).run (setOS sum256 contents) o s).finished = true) := by
  have hinv := run_inv sum256 contents o Q s0 schedule _ (Inv_init sum256 contents o Q s0 n)
  have ht := run_trace_inv sum256 contents o Q s0 schedule _ []
    (Inv_init sum256 contents o Q s0 n) (TraceInv_init sum256 contents o Q s0 n)
  rw [List.nil_append] at ht
  have hspa : storePath sum256 contents o a = filename o (sum256 c) a := by
    simp [storePath, ha]
  have hspb : storePath sum256 contents o b = storePath sum256 contents o a := by
    simp only [storePath, ha, hb, Option.getD_some, filename, hext]
  have hpair : ∀ T1 e1 T2 e2 T3,
      Machine.trace (setOS sum256 contents) o (Machine.init n Q s0) schedule =
        T1 ++ e1 :: (T2 ++ e2 :: T3) →
      e1.file = storePath sum256 contents o a → e2.file = storePath sum256 contents o a →
      e2.existed = true ∧
      (e1.existed = false ↔ storePath sum256 contents o a ∉ s0 ∧
        ∀ x ∈ T1, x.file ≠ storePath sum256 contents o a) := by
    intro T1 e1 T2 e2 T3 hT h1 h2
    constructor
    · have h := ht.order (T1 ++ e1 :: T2) e2 T3 (by rw [hT]; simp)
      cases he : e2.existed with
      | true => rfl
      | false =>
        have := (h.mp he).2 e1 (by simp)
        exact absurd (h1.trans h2.symm) this
    · have h := ht.order T1 e1 (T2 ++ e2 :: T3) hT
      rw [h1] at h
      exact h
  refine ⟨hspa, hspb, ht.files, hpair, ?_, ?_⟩
  swap
  · intro hn hread
    obtain ⟨k, rfl⟩ : ∃ k, n = k + 1 := ⟨n - 1, by omega⟩
    exact exists_finishing sum256 contents o Q s0 k hread
  intro hfin
  obtain ⟨-, hpend, hdone⟩ := finished_spec _ hfin
  have hheld := sum_all_zero PC.held PC.done rfl _ hdone
  have hadds := sum_all_zero PC.adds PC.done rfl _ hdone
  have hpaths := ht.paths
  rw [hpend, hheld] at hpaths
  have hQ : ((Machine.trace (setOS sum256 contents) o (Machine.init n Q s0) schedule).map
      LinkEvent.path : Multiset Str) = (Q : Multiset Str) := by
    rw [hpaths]; simp
  refine ⟨hQ, ?_, ?_⟩
  · have hd := ht.dups
    simp only [Machine.adds, hadds] at hd
    rw [hd]
    simp
  · intro haQ hbQ hne
    have hma : a ∈ (Machine.trace (setOS sum256 contents) o (Machine.init n Q s0)
        schedule).map LinkEvent.path := by
      have : a ∈ (Q : Multiset Str) := Multiset.mem_coe.mpr haQ
      rw [← hQ] at this
      exact Multiset.mem_coe.mp this
    have hmb : b ∈ (Machine.trace (setOS sum256 contents) o (Machine.init n Q s0)
        schedule).map LinkEvent.path := by
      have : b ∈ (Q : Multiset Str) := Multiset.mem_coe.mpr hbQ
      rw [← hQ] at this
      exact Multiset.mem_coe.mp this
    obtain ⟨ea, hea, hpa⟩ := List.mem_map.mp hma
    obtain ⟨eb, heb, hpb⟩ := List.mem_map.mp hmb
    have hfa : ea.file = storePath sum256 contents o a := by
      rw [(ht.files ea hea).2, hpa]
    have hfb : eb.file = storePath sum256 contents o a := by
      rw [(ht.files eb heb).2, hpb, hspb]
    have hneq : ea ≠ eb := fun h => hne (by rw [← hpa, ← hpb, h])
    obtain ⟨T1, T2, T3, h | h⟩ := two_mem_split _ ea eb hea heb hneq
    · obtain ⟨h1, h2⟩ := hpair T1 ea T2 eb T3 h hfa hfb
      exact ⟨T1, ea, T2, eb, T3, h, Or.inl ⟨hpa, hpb⟩, hfa, hfb, h1, h2⟩
    · obtain ⟨h1, h2⟩ := hpair T1 eb T2 ea T3 h hfb hfa
      exact ⟨T1, eb, T2, ea, T3, h, Or.inr ⟨hpb, hpa⟩, hfb, hfa, h1, h2⟩

set_option maxRecDepth 100000 in
theorem C2_two_identical_files_witness :
    demoContents "in/a.jpg".toList = some (List.replicate 8 7) ∧
    demoContents "in/b.jpg".toList = some (List.replicate 8 7) ∧
    ToLower (Ext "in/a.jpg".toList) = ToLower (Ext "in/b.jpg".toList) ∧
    ((Machine.init 2 ["in/a.jpg".toList, "in/b.jpg".toList] []).run demoOS "out".toList
      [0, 1, 1, 1, 1, 0, 0, 0, 0, 0, 1]).finished = true ∧
    Machine.trace demoOS "out".toList
        (Machine.init 2 ["in/a.jpg".toList, "in/b.jpg".toList] [])
        [0, 1, 1, 1, 1, 0, 0, 0, 0, 0, 1] =
      [⟨"in/b.jpg".toList, demoStore.head!, false⟩, ⟨"in/a.jpg".toList, demoStore.head!, true⟩] ∧
    ((Machine.init 2 ["in/a.jpg".toList, "in/b.jpg".toList] []).run demoOS "out".toList
      [0, 1, 1, 1, 1, 0, 0, 0, 0, 0, 1]).duplicates =
      wrapInt32 ((Machine.trace demoOS "out".toList
        (Machine.init 2 ["in/a.jpg".toList, "in/b.jpg".toList] [])
        [0, 1, 1, 1, 1, 0, 0, 0, 0, 0, 1]).filter (fun e => e.existed)).length :=
  ⟨rfl, rfl, by decide, by decide, by decide,
    ((C2_two_identical_files demoDigest demoContents "out".toList
      ["in/a.jpg".toList, "in/b.jpg".toList] [] 2 [0, 1, 1, 1, 1, 0, 0, 0, 0, 0, 1]
      "in/a.jpg".toList "in/b.jpg".toList (List.replicate 8 7) rfl rfl (by decide)).2.2.2.2.1
        (by decide)).2.1⟩

/-! ## Runs of the pipeline -/

/-- C9: over the store as a set of paths, whatever the two schedules, a run with one worker
and a run with 64 workers that both reach the summary line print the same skipped,
processed and duplicate totals; and when every queued file can be read, both runs have a
schedule that reaches the summary line. -/
theorem C9_parallelism_invariance [CaseTable] (cfg : Config) (sum256 : Digest)
    (contents : Str → Option (List Byte)) (input : List (Str × Entry)) (fs0 : List Str) :
    (∀ (s1 s64 : List Nat) (r1 r64 : Summary × List Str),
      mainPar { cfg with parallelism := 1 } (setOS sum256 contents) input fs0 s1 = some r1 →
      mainPar { cfg with parallelism := 64 } (setOS sum256 contents) input fs0 s64 = some r64 →
      r1.1 = r64.1) ∧
    ((∀ p ∈ (produce cfg input Producer.start).queue, contents p ≠ none) →
      (∃ s1 r1,
        mainPar { cfg with parallelism := 1 } (setOS sum256 contents) input fs0 s1 = some r1) ∧
      (∃ s64 r64,
        mainPar { cfg with parallelism := 64 } (setOS sum256 contents) input fs0 s64
          = some r64)) := by
  constructor
  · intro s1 s64 r1 r64 h1 h64
    have e1 := (mainPar_result sum256 contents _ input fs0 s1 r1 h1).1
    have e64 := (mainPar_result sum256 contents _ input fs0 s64 r64 h64).1
    rw [e1, e64]
    simp only [produce_parallelism]
  · intro hread
    constructor
    · exact mainPar_exists sum256 contents { cfg with parallelism := 1 } input fs0 0 rfl
        (by simpa only [produce_parallelism] using hread)
    · exact mainPar_exists sum256 contents { cfg with parallelism := 64 } input fs0 63 rfl
        (by simpa only [produce_parallelism] using hread)

set_option maxRecDepth 100000 in
theorem C9_parallelism_invariance_witness :
    mainPar { demoConfig with parallelism := 1 } demoOS demoInput [] (List.replicate 10 0) =
      some (⟨0, 2, 1⟩, demoStore) ∧
    mainPar { demoConfig with parallelism := 64 } demoOS demoInput []
      ([3, 7, 3, 7, 3, 7, 7, 3, 3] ++ List.range 64) = some (⟨0, 2, 1⟩, demoStore) ∧
    (⟨0, 2, 1⟩ : Summary) = ((⟨0, 2, 1⟩ : Summary), demoStore).1 :=
  ⟨by decide, by decide,
    (C9_parallelism_invariance demoConfig demoDigest demoContents demoInput []).1
      (List.replicate 10 0) ([3, 7, 3, 7, 3, 7, 7, 3, 3] ++ List.range 64)
      (⟨0, 2, 1⟩, demoStore) (⟨0, 2, 1⟩, demoStore) (by decide) (by decide)⟩

/-- C3: over the store as a set of paths, whatever the schedules, when a first run reaches
the summary line and a second run on the same inputs, started on the store the first one
left, reaches it too, the second run leaves the store as it found it and its duplicate total
equals its processed total (every accepted file is counted as a duplicate); and when there is
at least one worker and every queued file can be read, both runs have a schedule that reaches
the summary line. -/
theorem C3_second_run_idempotent [CaseTable] (cfg : Config) (sum256 : Digest)
    (contents : Str → Option (List Byte)) (input : List (Str × Entry)) (fs0 : List Str) :
    (∀ (s1 s2 : List Nat) (r1 r2 : Summary × List Str),
      mainPar cfg (setOS sum256 contents) input fs0 s1 = some r1 →
      mainPar cfg (setOS sum256 contents) input r1.2 s2 = some r2 →
      r2.2 = r1.2 ∧ r2.1.duplicates = r2.1.files ∧
      r2.1.files = wrapInt32 (produce cfg input Producer.start).queue.length) ∧
    (0 < cfg.parallelism →
      (∀ p ∈ (produce cfg input Producer.start).queue, contents p ≠ none) →
      ∃ s1 r1, mainPar cfg (setOS sum256 contents) input fs0 s1 = some r1 ∧
        ∃ s2 r2, mainPar cfg (setOS sum256 contents) input r1.2 s2 = some r2) := by
  constructor
  · intro s1 s2 r1 r2 h1 h2
    have e1 := mainPar_result sum256 contents cfg input fs0 s1 r1 h1
    have e2 := mainPar_result sum256 contents cfg input r1.2 s2 r2 h2
    have hfiles := produce_files_start cfg input
    refine ⟨e2.2.2 e1.2.1, ?_, ?_⟩
    · rw [e2.1]
      simp only
      rw [hfiles, toCome_all_mem]
      · simp
      · intro x hx
        obtain ⟨q, hq, rfl⟩ := List.mem_map.mp (Multiset.mem_coe.mp hx)
        exact (e1.2.1 q hq).1
    · rw [e2.1]
      exact hfiles
  · intro hpar hread
    obtain ⟨n, hn⟩ : ∃ n, cfg.parallelism = n + 1 := ⟨cfg.parallelism - 1, by omega⟩
    obtain ⟨s1, r1, h1⟩ := mainPar_exists sum256 contents cfg input fs0 n hn hread
    obtain ⟨s2, r2, h2⟩ := mainPar_exists sum256 contents cfg input r1.2 n hn hread
    exact ⟨s1, r1, h1, s2, r2, h2⟩

set_option maxRecDepth 100000 in
theorem C3_second_run_idempotent_witness :
    mainPar demoConfig demoOS demoInput [] ([3, 7, 3, 7, 3, 7, 7, 3, 3] ++ List.range 16) =
      some (⟨0, 2, 1⟩, demoStore) ∧
    mainPar demoConfig demoOS demoInput demoStore
      ([0, 1, 0, 1, 0, 1, 0, 1, 0, 1] ++ List.range 16) = some (⟨0, 2, 2⟩, demoStore) ∧
    ((⟨0, 2, 2⟩ : Summary), demoStore).2 = ((⟨0, 2, 1⟩ : Summary), demoStore).2 ∧
    (⟨0, 2, 2⟩ : Summary).duplicates = (⟨0, 2, 2⟩ : Summary).files :=
  ⟨by decide, by decide,
    ((C3_second_run_idempotent demoConfig demoDigest demoContents demoInput []).1
      ([3, 7, 3, 7, 3, 7, 7, 3, 3] ++ List.range 16)
      ([0, 1, 0, 1, 0, 1, 0, 1, 0, 1] ++ List.range 16)
      (⟨0, 2, 1⟩, demoStore) (⟨0, 2, 2⟩, demoStore) (by decide) (by decide)).1,
    ((C3_second_run_idempotent demoConfig demoDigest demoContents demoInput []).1
      ([3, 7, 3, 7, 3, 7, 7, 3, 3] ++ List.range 16)
      ([0, 1, 0, 1, 0, 1, 0, 1, 0, 1] ++ List.range 16)
      (⟨0, 2, 1⟩, demoStore) (⟨0, 2, 2⟩, demoStore) (by decide) (by decide)).2.1⟩

end Dedupe
